import Mathlib

/-!
# Interleaved-experiment statistics and exact binomial sample size

A shallow embedding of the C++ routines of the `wmf` package
(`interleaved_map`, `interleaved_preference`, `interleaved_bootstraps`,
`interleaved_confint`, `exact_binom`) together with theorems about them.

Conventions of the embedding:

* `std::vector<std::string>` is `List String`; an index loop over a vector is a
  recursion over its tail, and an out-of-bounds read (undefined behaviour in the
  source) makes the function return `none`.
* `std::map<std::string, int>` is an association list with unique keys
  (`WinsMap`).  `insert` leaves an existing key untouched, `operator[]` adds a
  missing key with value `0`.  The iteration order of the map is not modelled:
  the only loop over it counts values.
* `double` values are exact rationals extended with the results of a division
  by zero (`Dbl`).  The functions compute in exact arithmetic; the rounding of
  binary64 is modelled by `roundDouble`, and `interleaved_preference_double` is
  `interleaved_preference` with every operation rounded.
* The library functions the routines call are arguments of the embedding: the
  sampler, the sample `quantile` of `interleaved_confint`, the binomial `cdf` and
  `quantile` of `exact_binom`.  `quantile7`, `binom_cdf` and `binom_quantile` are
  their standard exact definitions.
* `int` counters are `Int`; they are bounded by the number of events, and
  overflow of the 32-bit counters (more than `2^31 - 1` events) is not modelled.
-/

namespace Wmf

/-! ## Doubles in exact arithmetic -/

/-- Value of a `double` expression: a rational, an infinity (nonzero divided by
zero) or NaN (zero divided by zero). -/
inductive Dbl where
  | fin (q : ℚ)
  | posInf
  | negInf
  | nan
deriving DecidableEq

/-- Division `x / y` of two finite doubles; a zero divisor is `+0.0`. -/
def Dbl.div (x y : ℚ) : Dbl :=
  if y = 0 then
    if x = 0 then Dbl.nan else if 0 < x then Dbl.posInf else Dbl.negInf
  else Dbl.fin (x / y)

/-- Subtraction `d - r` of a finite double from a double. -/
def Dbl.sub : Dbl → ℚ → Dbl
  | Dbl.fin q, r => Dbl.fin (q - r)
  | Dbl.posInf, _ => Dbl.posInf
  | Dbl.negInf, _ => Dbl.negInf
  | Dbl.nan, _ => Dbl.nan

/-- Comparison `d >= r`; every comparison with NaN is false. -/
def Dbl.ge : Dbl → ℚ → Bool
  | Dbl.fin q, r => decide (r ≤ q)
  | Dbl.posInf, _ => true
  | Dbl.negInf, _ => false
  | Dbl.nan, _ => false

/-- Comparison `d < r`; every comparison with NaN is false. -/
def Dbl.lt : Dbl → ℚ → Bool
  | Dbl.fin q, r => decide (q < r)
  | Dbl.posInf, _ => false
  | Dbl.negInf, _ => true
  | Dbl.nan, _ => false

/-! ## The outcome map -/

/-- Contents of a `std::map<std::string, int>`: key/value pairs with unique keys. -/
abbrev WinsMap := List (String × Int)

/-- Value stored under key `k`, if any (`std::map::find`). -/
def WinsMap.find : WinsMap → String → Option Int
  | [], _ => none
  | (k', v) :: rest, k => if k' = k then some v else WinsMap.find rest k

/-- Insertion `wins.insert(std::make_pair(k, v))`: nothing happens when the key
is already present. -/
def WinsMap.insert (m : WinsMap) (k : String) (v : Int) : WinsMap :=
  match WinsMap.find m k with
  | some _ => m
  | none => m ++ [(k, v)]

/-- Subscript `wins[k]`: the stored value, or `0` after inserting the missing key. -/
def WinsMap.subscript (m : WinsMap) (k : String) : Int × WinsMap :=
  match WinsMap.find m k with
  | some v => (v, m)
  | none => (0, m ++ [(k, 0)])

/-! ## `interleaved_map` -/

/-- Local state of `interleaved_map`. -/
structure Scan where
  wins : WinsMap
  perSessionWinsA : Int
  perSessionWinsB : Int

/-- Value inserted for a finished session:
`(a == b) ? 0 : ((a > b) ? 1 : -1)`. -/
def sessionOutcome (a b : Int) : Int :=
  if a = b then 0 else if a > b then 1 else -1

/-- Tally of one click: `if (clicks[i] == "A") perSessionWinsA++ else perSessionWinsB++`. -/
def countClick (c : String) (st : Scan) : Scan :=
  if c = "A" then { st with perSessionWinsA := st.perSessionWinsA + 1 }
  else { st with perSessionWinsB := st.perSessionWinsB + 1 }

/-- Body of `if (sessions[i] != sessions[i - 1])`: store the previous session's
outcome and reset the tallies. -/
def flushSession (prev : String) (st : Scan) : Scan :=
  { wins := WinsMap.insert st.wins prev (sessionOutcome st.perSessionWinsA st.perSessionWinsB)
    perSessionWinsA := 0
    perSessionWinsB := 0 }

/-- The loop `for (i = 1; i < sessions.size(); i++)`: `prev` is `sessions[i - 1]`,
the two lists are the elements of `sessions` and `clicks` from index `i` on. -/
def scanFrom : String → List String → List String → Scan → Option Scan
  | _, [], _, st => some st
  | _, _ :: _, [], _ => none
  | prev, s :: ss, c :: cs, st =>
    scanFrom s ss cs (countClick c (if s ≠ prev then flushSession prev st else st))

/-- The function `interleaved_map`. -/
def interleaved_map (sessions clicks : List String) : Option WinsMap :=
  match clicks with
  | [] => none
  | c0 :: cs =>
    let st0 := countClick c0 { wins := [], perSessionWinsA := 0, perSessionWinsB := 0 }
    match sessions with
    | [] => some st0.wins
    | s0 :: ss => (scanFrom s0 ss cs st0).map Scan.wins

/-! ## `interleaved_preference` -/

/-- The three counters `winsA`, `winsB`, `ties`. -/
structure Tally where
  winsA : Int
  winsB : Int
  ties : Int
deriving DecidableEq

/-- The `switch` over an outcome value. -/
def Tally.count (t : Tally) (v : Int) : Tally :=
  if v = 0 then { t with ties := t.ties + 1 }
  else if v = 1 then { t with winsA := t.winsA + 1 }
  else if v = -1 then { t with winsB := t.winsB + 1 }
  else t

/-- The sum `winsA + winsB + ties`, the divisor of the preference formula. -/
def Tally.total (t : Tally) : Int := t.winsA + t.winsB + t.ties

/-- The expression `((winsA + (ties / 2.0)) / (winsA + winsB + ties)) - 0.5`. -/
def Tally.preference (t : Tally) : Dbl :=
  Dbl.sub (Dbl.div ((t.winsA : ℚ) + (t.ties : ℚ) / 2) ((t.winsA + t.winsB + t.ties : Int) : ℚ)) (1 / 2)

/-- The loop `for (auto const& session : wins)` of `interleaved_preference`. -/
def sessionTally (wins : WinsMap) : Tally :=
  wins.foldl (fun t kv => t.count kv.2) { winsA := 0, winsB := 0, ties := 0 }

/-- The function `interleaved_preference`. -/
def interleaved_preference (sessions clicks : List String) : Option Dbl :=
  (interleaved_map sessions clicks).map fun wins => (sessionTally wins).preference

/-! ## `interleaved_bootstraps` -/

/-- Lexicographic comparison of two character sequences by code point, the
order of `std::string::operator<=` on UTF-8 text. -/
def lexLe : List Char → List Char → Bool
  | [], _ => true
  | _ :: _, [] => false
  | a :: as, b :: bs =>
    if a.toNat < b.toNat then true
    else if b.toNat < a.toNat then false
    else lexLe as bs

/-- Insertion of a string into a sorted list. -/
def insertSorted (x : String) : List String → List String
  | [] => [x]
  | y :: ys => if lexLe x.data y.data then x :: y :: ys else y :: insertSorted x ys

/-- The call `std::sort(sessions.begin(), sessions.end())`. -/
def sortStrings (l : List String) : List String :=
  l.foldr insertSorted []

/-- The call `std::unique_copy`: one element is kept of every run of equal
neighbours. -/
def unique_copy : List String → List String
  | [] => []
  | [x] => [x]
  | x :: y :: rest => if x = y then unique_copy (y :: rest) else x :: unique_copy (y :: rest)

/-- The vector `uniques` of `interleaved_bootstraps`. -/
def uniques (sessions : List String) : List String :=
  unique_copy (sortStrings sessions)

/-- The inner loop `for (std::string &session : resampled)` with its
`switch(wins[session])`; the map is returned because the subscript may grow it. -/
def resampleTally (wins : WinsMap) (resampled : List String) : Tally × WinsMap :=
  resampled.foldl
    (fun acc session =>
      ((acc.1).count (WinsMap.subscript acc.2 session).1, (WinsMap.subscript acc.2 session).2))
    ({ winsA := 0, winsB := 0, ties := 0 }, wins)

/-- The loop `for (i = 0; i < bootstraps; i++)`, with `n` rounds left.  The call
`sample i population size` is the result of the `i`-th call of
`RcppArmadillo::sample(population, size, true)`. -/
def bootstrapLoop (sample : Nat → List String → Nat → List String) (uniq : List String) :
    Nat → Nat → WinsMap → List Dbl
  | 0, _, _ => []
  | n + 1, i, wins =>
    (resampleTally wins (sample i uniq uniq.length)).1.preference ::
      bootstrapLoop sample uniq n (i + 1) (resampleTally wins (sample i uniq uniq.length)).2

/-- The function `interleaved_bootstraps`; the replicate count is a natural number. -/
def interleaved_bootstraps (sample : Nat → List String → Nat → List String)
    (sessions clicks : List String) (bootstraps : Nat) : Option (List Dbl) :=
  (interleaved_map sessions clicks).map fun wins =>
    bootstrapLoop sample (uniques sessions) bootstraps 0 wins

/-- A sampler with replacement returns `size` elements of a non-empty population. -/
def ValidSampler (sample : Nat → List String → Nat → List String) : Prop :=
  ∀ i population size, population ≠ [] →
    (sample i population size).length = size ∧ ∀ x ∈ sample i population size, x ∈ population

/-- A sampler that draws the last element of the population every time. -/
def sampleLast (_ : Nat) (population : List String) (size : Nat) : List String :=
  List.replicate size (population.getLast?.getD "")

/-! ## `exact_binom` -/

/-- The constant `INT_MAX` of `<climits>` for a 32-bit `int`. -/
def INT_MAX : Nat := 2147483647

/-- The assignment to `end_condition` at sample size `i`:
`abs(cdf(binomial(i, p0 + delta), quantile(binomial(i, p0), 1 - alpha)) - beta) / beta >= 0.01`. -/
def end_condition (cdf quantile : Nat → ℚ → ℚ → ℚ) (p0 delta alpha beta : ℚ) (i : Nat) : Bool :=
  Dbl.ge (Dbl.div |cdf i (p0 + delta) (quantile i p0 (1 - alpha)) - beta| beta) (1 / 100)

/-- The `do ... while (end_condition)` loop with `fuel` iterations allowed. -/
def exact_binom_loop (cond : Nat → Bool) : Nat → Nat → Option Nat
  | 0, _ => none
  | fuel + 1, i =>
    if i + 1 = INT_MAX then some (i + 1)
    else if cond (i + 1) then exact_binom_loop cond fuel (i + 1)
    else some (i + 1)

/-- The function `exact_binom`, given the binomial `cdf n p k` and
`quantile n p prob` of the statistics library. -/
def exact_binom (cdf quantile : Nat → ℚ → ℚ → ℚ) (constant_prop effect_size alpha power : ℚ)
    (two_tail : Bool) : Option Nat :=
  exact_binom_loop
    (end_condition cdf quantile constant_prop effect_size (if two_tail then alpha / 2 else alpha)
      (1 - power))
    (INT_MAX - 10) 10

/-! ## `interleaved_confint` -/

/-- The list returned by `interleaved_confint`, with its entries `point.est`,
`lower` and `upper`. -/
structure ConfInt where
  point_est : Dbl
  lower : Dbl
  upper : Dbl

/-- The function `interleaved_confint`, given the `quantile` function of the
statistics environment as a total function of a sample and a probability. -/
def interleaved_confint (quantile : List Dbl → ℚ → Dbl)
    (sample : Nat → List String → Nat → List String) (sessions clicks : List String)
    (bootstraps : Nat) (confidence : ℚ) : Option ConfInt :=
  (interleaved_bootstraps sample sessions clicks bootstraps).map fun preferences =>
    { point_est := quantile preferences (1 / 2)
      lower := quantile preferences ((1 - confidence) / 2)
      upper := quantile preferences (1 - (1 - confidence) / 2) }

/-- Comparison `d <= e` of two doubles; every comparison with NaN is false. -/
def Dbl.le : Dbl → Dbl → Bool
  | Dbl.nan, _ => false
  | _, Dbl.nan => false
  | Dbl.negInf, _ => true
  | _, Dbl.posInf => true
  | Dbl.fin q, Dbl.fin r => decide (q ≤ r)
  | Dbl.fin _, Dbl.negInf => false
  | Dbl.posInf, _ => false

/-- The rational values of a sample, when all its values are finite. -/
def finiteValues : List Dbl → Option (List ℚ)
  | [] => some []
  | Dbl.fin q :: rest => (finiteValues rest).map fun qs => q :: qs
  | _ :: _ => none

/-- Linear interpolation in a sorted sample at the fractional index `h`:
`(1 - g) * s[floor h] + g * s[ceil h]` with `g = h - floor h`. -/
def interpolate (s : List ℚ) (h : ℚ) : ℚ :=
  (1 - (h - ⌊h⌋)) * s.getD ⌊h⌋.toNat 0 + (h - ⌊h⌋) * s.getD ⌈h⌉.toNat 0

/-- Modelled from the spec: the external `quantile` function as the type-7
estimator, the sorted sample of size `n` interpolated at the index `(n - 1) * p`.
An empty sample gives NA (a NaN); a sample with a value that is not finite is
given NaN here. -/
def quantile7 (xs : List Dbl) (p : ℚ) : Dbl :=
  match finiteValues xs with
  | none => Dbl.nan
  | some [] => Dbl.nan
  | some (q :: qs) =>
    Dbl.fin (interpolate ((q :: qs).insertionSort fun a b => a ≤ b) ((qs.length : ℚ) * p))

/-! ## Specification-side notions -/

/-- Runs of equal neighbouring session ids, each with its clicks in order;
`id` and `cur` are the run being read. -/
def runsAux (id : String) (cur : List String) :
    List (String × String) → List (String × List String)
  | [] => [(id, cur)]
  | (s, c) :: rest =>
    if s = id then runsAux id (cur ++ [c]) rest else (id, cur) :: runsAux s [c] rest

/-- The contiguous runs of an input: session id and clicks of every run. -/
def runs (sessions clicks : List String) : List (String × List String) :=
  match sessions.zip clicks with
  | [] => []
  | (s, c) :: rest => runsAux s [c] rest

/-- Outcome of a run: `1` with more clicks equal to "A" than other clicks,
`-1` with fewer, `0` with as many. -/
def runOutcome (cs : List String) : Int :=
  if cs.length - cs.count "A" < cs.count "A" then 1
  else if cs.count "A" < cs.length - cs.count "A" then -1
  else 0

/-- Every session's events are contiguous: no two runs have the same id. -/
def Contiguous (sessions : List String) : Prop :=
  (unique_copy sessions).Nodup

instance (sessions : List String) : Decidable (Contiguous sessions) := by
  unfold Contiguous; infer_instance

/-- Exchange of the labels "A" and "B". -/
def swapLabel (c : String) : String :=
  if c = "A" then "B" else if c = "B" then "A" else c

/-- Insertion of the outcomes of a list of runs, in order. -/
def flushAll (w : WinsMap) (rs : List (String × List String)) : WinsMap :=
  rs.foldl (fun m r => WinsMap.insert m r.1 (runOutcome r.2)) w

/-- The same map with every outcome negated. -/
def negMap (m : WinsMap) : WinsMap :=
  m.map fun kv => (kv.1, -kv.2)

/-- Every stored outcome is one of `0`, `1`, `-1`. -/
def ValidOutcomes (m : WinsMap) : Prop :=
  ∀ kv ∈ m, kv.2 = 0 ∨ kv.2 = 1 ∨ kv.2 = -1

/-- Number of distinct session ids of an input. -/
def distinctSessions (sessions : List String) : Nat :=
  sessions.dedup.length

/-- The outcome map before replicate `j + k` of the bootstrap loop, when it is
`w` before replicate `j`. -/
def winsAfter (sample : Nat → List String → Nat → List String) (uniq : List String) :
    Nat → Nat → WinsMap → WinsMap
  | 0, _, w => w
  | k + 1, j, w => winsAfter sample uniq k (j + 1) (resampleTally w (sample j uniq uniq.length)).2

/-- The map `w` is `wins0` with some missing keys added with value `0`. -/
def Extends (wins0 w : WinsMap) : Prop :=
  ∀ k, WinsMap.find w k = WinsMap.find wins0 k ∨
    (WinsMap.find wins0 k = none ∧ WinsMap.find w k = some 0)

/-- The stopping test as the specification words it:
`|cdf(Binomial(n, p0 + delta), quantile(Binomial(n, p0), 1 - alpha)) - beta| / beta < 0.01`. -/
def deviation_below (cdf quantile : Nat → ℚ → ℚ → ℚ) (p0 delta alpha beta : ℚ) (n : Nat) : Bool :=
  Dbl.lt (Dbl.div |cdf n (p0 + delta) (quantile n p0 (1 - alpha)) - beta| beta) (1 / 100)

/-- Contiguity stated on positions: whenever the same session id stands at two
positions, it stands at every position between them. -/
def ContiguousIdx (sessions : List String) : Prop :=
  ∀ i j k : Nat, i < j → j < k →
    ∀ a, sessions[i]? = some a → sessions[k]? = some a → sessions[j]? = some a

/-- Tally of a drawn list against the outcome map `wins0`, an absent id counting
as a tie. -/
def replicateTally (wins0 : WinsMap) (drawn : List String) : Tally :=
  { winsA := (drawn.countP fun s => WinsMap.find wins0 s = some 1)
    winsB := (drawn.countP fun s => WinsMap.find wins0 s = some (-1))
    ties := (drawn.countP fun s => WinsMap.find wins0 s = some 0 ∨ WinsMap.find wins0 s = none) }

/-- A sampler that draws the last element of the population in round `i0` and
the first element in every other round. -/
def sampleHeadExcept (i0 : Nat) (i : Nat) (population : List String) (size : Nat) : List String :=
  if i = i0 then List.replicate size (population.getLast?.getD "")
  else List.replicate size (population.head?.getD "")

/-! ## The binomial distribution in exact arithmetic -/

/-- Probability that a Binomial(n, p) variable equals `j`. -/
def binom_pmf (n : Nat) (p : ℚ) (j : Nat) : ℚ :=
  (n.choose j : ℚ) * p ^ j * (1 - p) ^ (n - j)

/-- Probability that a Binomial(n, p) variable is at most the natural number `k`. -/
def cdfNat (n : Nat) (p : ℚ) (k : Nat) : ℚ :=
  Finset.sum (Finset.range (k + 1)) (binom_pmf n p)

/-- Modelled from the spec: the cdf of the external binomial distribution
library, in its standard exact form `P(X ≤ k)` for a real `k`. -/
def binom_cdf (n : Nat) (p k : ℚ) : ℚ :=
  if k < 0 then 0 else cdfNat n p ⌊k⌋.toNat

/-- Upward search for the smallest `x ≥ k` with `P(X ≤ x) ≥ prob`, with `fuel`
values left to try. -/
def quantileFrom (n : Nat) (p prob : ℚ) : Nat → Nat → Nat
  | 0, k => k
  | fuel + 1, k => if prob ≤ cdfNat n p k then k else quantileFrom n p prob fuel (k + 1)

/-- Modelled from the spec: the quantile of the external binomial distribution
library, in its standard exact form: the smallest `x` in `0..n` with
`P(X ≤ x) ≥ prob`, and `n` when there is none. -/
def binom_quantile (n : Nat) (p prob : ℚ) : ℚ :=
  (quantileFrom n p prob n 0 : Nat)

/-- Accumulation of `C(n, j) * a^j * c^(n - j)` for `s` consecutive values of `j`;
`cj` is the binomial coefficient `C(n, j)`. -/
def sumLoop (n a c : Nat) : Nat → Nat → Nat → Nat → Nat
  | 0, _, _, acc => acc
  | s + 1, j, cj, acc =>
    sumLoop n a c s (j + 1) (cj * (n - j) / (j + 1)) (acc + cj * a ^ j * c ^ (n - j))

/-- The sum of `C(n, j) * a^j * c^(n - j)` over `j ≤ k`: the numerator of
`P(X ≤ k)` for `p = a / (a + c)` over the denominator `(a + c)^n`. -/
def lowerSum (n a c k : Nat) : Nat := sumLoop n a c (k + 1) 0 1 0

/-- One step of a certificate for the search loop.  With `p0 = a0 / (a0 + c0)`,
`p1 = a1 / (a1 + c1)`, `prob = u / v` and the bound `tu / tv`, it checks that
`P(X ≤ k | n0, p0) < prob` and `P(X ≤ k + 1 | n1, p1) ≥ tu / tv`. -/
def checkpointOk (a0 c0 a1 c1 u v tu tv n0 n1 k : Nat) : Bool :=
  decide (k + 1 ≤ n0) && decide (n0 ≤ n1) &&
    decide (v * lowerSum n0 a0 c0 k < u * (a0 + c0) ^ n0) &&
    decide (tu * (a1 + c1) ^ n1 ≤ tv * lowerSum n1 a1 c1 (k + 1))

/-- Check of a chain of certificate steps `(n1, k)` starting at the sample size
`lo`; the result is the first sample size the chain does not cover. -/
def certEnd (a0 c0 a1 c1 u v tu tv : Nat) : Nat → List (Nat × Nat) → Option Nat
  | lo, [] => some lo
  | lo, (n1, k) :: rest =>
    if checkpointOk a0 c0 a1 c1 u v tu tv lo n1 k then
      certEnd a0 c0 a1 c1 u v tu tv (n1 + 1) rest
    else none

/-- The test of `checkpointOk` stated on the upper tails `P(X > k)`, which have
fewer terms: `P(X > k | n0, p0) > 1 - prob` and
`P(X > k + 1 | n1, p1) ≤ 1 - tu / tv`. -/
def checkpointOkUpper (a0 c0 a1 c1 u v tu tv n0 n1 k : Nat) : Bool :=
  decide (k + 1 ≤ n0) && decide (n0 ≤ n1) && decide (k + 2 ≤ n1) && decide (u ≤ v) &&
    decide (tu ≤ tv) &&
    decide ((v - u) * (a0 + c0) ^ n0 < v * lowerSum n0 c0 a0 (n0 - k - 1)) &&
    decide (tv * lowerSum n1 c1 a1 (n1 - (k + 1) - 1) ≤ (tv - tu) * (a1 + c1) ^ n1)

/-- The check `certEnd` with every step tested on the upper tails. -/
def certEndUpper (a0 c0 a1 c1 u v tu tv : Nat) : Nat → List (Nat × Nat) → Option Nat
  | lo, [] => some lo
  | lo, (n1, k) :: rest =>
    if checkpointOkUpper a0 c0 a1 c1 u v tu tv lo n1 k then
      certEndUpper a0 c0 a1 c1 u v tu tv (n1 + 1) rest
    else none

/-- Certificate steps `(n1, k)` for the search with `constant_prop = 0.75`,
`effect_size = 0.01`, `alpha = 0.05` (two-tailed) and `power = 0.9`, from sample
size 11 on. -/
def certSmallEffect : List (Nat × Nat) :=
  [
    (18, 10), (28, 17), (39, 25), (51, 34), (65, 44), (80, 55), (97, 67), (116, 81),
    (136, 96), (157, 111), (180, 128), (204, 146), (230, 165), (256, 185), (283, 205), (312, 226),
    (342, 249), (373, 272), (405, 296), (438, 320), (472, 346), (507, 372), (543, 399), (581, 427),
    (619, 456), (658, 485), (698, 515), (738, 545), (779, 576), (821, 607), (865, 640), (909, 673),
    (954, 707), (999, 741), (1046, 776), (1092, 811), (1140, 847), (1188, 883), (1237, 920), (1286, 957),
    (1336, 994), (1387, 1033), (1438, 1071), (1490, 1110), (1543, 1150), (1596, 1190), (1649, 1230), (1704, 1271),
    (1759, 1313), (1814, 1354), (1869, 1396), (1925, 1438), (1982, 1481), (2039, 1524), (2096, 1567), (2153, 1610)]

/-- Certificate steps `(n1, k)` for the two-tailed search with
`constant_prop = 0.75`, `effect_size = 0.03`, `alpha = 0.05` and `power = 0.9`,
from sample size 11 on. -/
def certDocumentedTwoTail : List (Nat × Nat) :=
  [
    (17, 10), (25, 16), (35, 23), (46, 31), (58, 40), (70, 49), (83, 59), (98, 70),
    (113, 81), (128, 93), (144, 105), (161, 118), (179, 131), (197, 145), (215, 159), (234, 173),
    (253, 188), (273, 203), (293, 218), (313, 234), (333, 249), (354, 265), (375, 281), (396, 297),
    (417, 313), (439, 330), (461, 347), (482, 363), (504, 380), (526, 397), (547, 413), (569, 430),
    (591, 447), (612, 463), (634, 480), (655, 496), (676, 512), (698, 529), (718, 545), (739, 561),
    (760, 577), (781, 593), (801, 609), (821, 624), (842, 640), (862, 656), (882, 671), (901, 686),
    (921, 701), (940, 716), (960, 731), (979, 746), (997, 760), (1015, 774), (1034, 788), (1052, 802),
    (1070, 816), (1088, 830), (1106, 844), (1123, 857), (1140, 870), (1157, 883), (1173, 896), (1189, 908),
    (1206, 921), (1221, 933), (1237, 945), (1252, 957), (1268, 969), (1283, 981), (1298, 992), (1313, 1004),
    (1327, 1015), (1342, 1026), (1356, 1037), (1370, 1048), (1383, 1058), (1396, 1068), (1409, 1078), (1422, 1088),
    (1435, 1098), (1448, 1108), (1461, 1118), (1474, 1128), (1487, 1138), (1498, 1147), (1510, 1156), (1522, 1165),
    (1533, 1174), (1544, 1182), (1555, 1191), (1565, 1199), (1576, 1207), (1586, 1215), (1597, 1223), (1607, 1231),
    (1617, 1239), (1626, 1246), (1635, 1253), (1644, 1260), (1653, 1267), (1662, 1274), (1672, 1281), (1681, 1288),
    (1690, 1295), (1699, 1302), (1708, 1309), (1717, 1316)]

/-! ## The preference in IEEE double arithmetic -/

/-- Rounding of a rational to the nearest integer, a tie going to the even one. -/
def roundHalfEven (x : ℚ) : ℤ :=
  if x - ⌊x⌋ < 1 / 2 then ⌊x⌋
  else if 1 / 2 < x - ⌊x⌋ then ⌊x⌋ + 1
  else if ⌊x⌋ % 2 = 0 then ⌊x⌋ else ⌊x⌋ + 1

/-- Rounding of a rational to the nearest binary64 value (53-bit significand,
ties to even).  Overflow and subnormal values are not modelled: the function is
the IEEE rounding for `2^-1022 ≤ |q| < 2^1024`. -/
def roundDouble (q : ℚ) : ℚ :=
  if q = 0 then 0
  else (roundHalfEven (q / 2 ^ (Int.log 2 |q| - 52)) : ℚ) * 2 ^ (Int.log 2 |q| - 52)

/-- Rounding of the exact result of a double operation. -/
def Dbl.round : Dbl → Dbl
  | Dbl.fin q => Dbl.fin (roundDouble q)
  | Dbl.posInf => Dbl.posInf
  | Dbl.negInf => Dbl.negInf
  | Dbl.nan => Dbl.nan

/-- The expression `((winsA + (ties / 2.0)) / (winsA + winsB + ties)) - 0.5` in
double arithmetic: the division and the subtraction round their results.  The
conversions of the counters, the halving of `ties` and the sum
`winsA + ties / 2.0` are exact for counters below `2^52`. -/
def Tally.preferenceDouble (t : Tally) : Dbl :=
  Dbl.round (Dbl.sub
    (Dbl.round (Dbl.div ((t.winsA : ℚ) + (t.ties : ℚ) / 2)
      ((t.winsA + t.winsB + t.ties : Int) : ℚ)))
    (1 / 2))

/-- The function `interleaved_preference` with its result computed in double
arithmetic. -/
def interleaved_preference_double (sessions clicks : List String) : Option Dbl :=
  (interleaved_map sessions clicks).map fun wins => (sessionTally wins).preferenceDouble

/-! ## Lemmas on the outcome map -/

theorem find_append_single (m : WinsMap) (k k' : String) (v : Int) :
    WinsMap.find (m ++ [(k, v)]) k' =
      match WinsMap.find m k' with
      | some x => some x
      | none => if k = k' then some v else none := by
  induction m with
  | nil => simp [WinsMap.find]
  | cons hd tl ih =>
    obtain ⟨a, b⟩ := hd
    by_cases h : a = k'
    · simp [WinsMap.find, h]
    · simp [WinsMap.find, h, ih]

theorem find_insert (m : WinsMap) (k k' : String) (v : Int) :
    WinsMap.find (WinsMap.insert m k v) k' =
      match WinsMap.find m k' with
      | some x => some x
      | none => if k = k' then some v else none := by
  unfold WinsMap.insert
  cases hk : WinsMap.find m k with
  | none => simp only [find_append_single]
  | some x =>
    cases hk' : WinsMap.find m k' with
    | some y => simp
    | none =>
      have : k ≠ k' := by
        rintro rfl
        rw [hk] at hk'
        cases hk'
      simp [this]

theorem sessionOutcome_eq_runOutcome (cur : List String) (a b : Int)
    (ha : a = (cur.count "A" : Nat)) (hb : b = ((cur.length - cur.count "A" : Nat) : Int)) :
    sessionOutcome a b = runOutcome cur := by
  have hle : cur.count "A" ≤ cur.length := List.count_le_length _ _
  unfold sessionOutcome runOutcome
  subst ha hb
  split_ifs <;> omega

theorem runsAux_ne_nil (id : String) (cur : List String) (l : List (String × String)) :
    runsAux id cur l ≠ [] := by
  induction l generalizing id cur with
  | nil => simp [runsAux]
  | cons hd tl ih =>
    obtain ⟨s, c⟩ := hd
    unfold runsAux
    split_ifs
    · exact ih _ _
    · simp

theorem scanFrom_wins (ss : List String) :
    ∀ (cs : List String) (prev : String) (cur : List String) (w : WinsMap) (a b : Int),
      ss.length = cs.length →
      a = (cur.count "A" : Nat) → b = ((cur.length - cur.count "A" : Nat) : Int) →
      (scanFrom prev ss cs ⟨w, a, b⟩).map Scan.wins =
        some (flushAll w (runsAux prev cur (ss.zip cs)).dropLast) := by
  induction ss with
  | nil =>
    intro cs prev cur w a b _ _ _
    simp [scanFrom, runsAux, flushAll]
  | cons s ss ih =>
    intro cs prev cur w a b hlen ha hb
    cases cs with
    | nil => simp at hlen
    | cons c cs =>
      have hlen' : ss.length = cs.length := by simpa using hlen
      have hle : cur.count "A" ≤ cur.length := List.count_le_length _ _
      simp only [scanFrom, List.zip_cons_cons, runsAux]
      by_cases h : s = prev
      · subst h
        simp only [ne_eq, not_true_eq_false, if_false, if_true]
        by_cases hc : c = "A"
        · subst hc
          simp only [countClick, if_true]
          apply ih cs s (cur ++ ["A"]) w (a + 1) b hlen'
          · simp [List.count_append]; omega
          · simp [List.count_append]; omega
        · simp only [countClick, hc, if_false]
          apply ih cs s (cur ++ [c]) w a (b + 1) hlen'
          · simp [List.count_append, List.count_singleton, hc]; omega
          · simp [List.count_append, List.count_singleton, hc]; omega
      · simp only [ne_eq, h, not_false_eq_true, if_true, if_false]
        rw [List.dropLast_cons_of_ne_nil (runsAux_ne_nil _ _ _)]
        simp only [flushAll, List.foldl_cons]
        rw [← sessionOutcome_eq_runOutcome cur a b ha hb]
        by_cases hc : c = "A"
        · subst hc
          simp only [countClick, flushSession, if_true]
          exact ih cs s ["A"] _ (0 + 1) 0 hlen' (by simp) (by simp)
        · simp only [countClick, flushSession, hc, if_false]
          exact ih cs s [c] _ 0 (0 + 1) hlen' (by simp [List.count_singleton, hc])
            (by simp [List.count_singleton, hc])

theorem runsAux_keys (ss : List String) :
    ∀ (cs : List String) (id : String) (cur : List String), ss.length = cs.length →
      (runsAux id cur (ss.zip cs)).map Prod.fst = unique_copy (id :: ss) := by
  induction ss with
  | nil =>
    intro cs id cur _
    simp [runsAux, unique_copy]
  | cons s ss ih =>
    intro cs id cur hlen
    cases cs with
    | nil => simp at hlen
    | cons c cs =>
      have hlen' : ss.length = cs.length := by simpa using hlen
      simp only [List.zip_cons_cons, runsAux, unique_copy]
      by_cases h : s = id
      · subst h
        simp only [if_true]
        exact ih cs s _ hlen'
      · have h' : ¬ id = s := fun e => h e.symm
        simp only [h, h', if_false, List.map_cons]
        exact congrArg (List.cons id) (ih cs s _ hlen')

theorem find_flushAll (rs : List (String × List String)) :
    ∀ (w : WinsMap) (k : String) (v : Int), (rs.map Prod.fst).Nodup →
      (WinsMap.find (flushAll w rs) k = some v ↔
        WinsMap.find w k = some v ∨
          (WinsMap.find w k = none ∧ ∃ r ∈ rs, r.1 = k ∧ v = runOutcome r.2)) := by
  induction rs with
  | nil =>
    intro w k v _
    simp [flushAll]
  | cons r0 rs ih =>
    intro w k v hnd
    have hnd' : (rs.map Prod.fst).Nodup := (List.nodup_cons.mp hnd).2
    have hnotin : r0.1 ∉ rs.map Prod.fst := (List.nodup_cons.mp hnd).1
    have hstep : flushAll w (r0 :: rs) = flushAll (WinsMap.insert w r0.1 (runOutcome r0.2)) rs := by
      simp [flushAll]
    rw [hstep, ih _ k v hnd', find_insert]
    cases hw : WinsMap.find w k with
    | some x => simp
    | none =>
      by_cases hk : r0.1 = k
      · simp only [hk, if_true, List.mem_cons]
        constructor
        · rintro (h | ⟨h, _⟩)
          · right
            refine ⟨trivial, r0, Or.inl rfl, hk, ?_⟩
            exact (Option.some.inj h).symm
          · cases h
        · rintro (h | ⟨_, r, hr, hrk, hv⟩)
          · cases h
          · rcases hr with rfl | hr
            · left; rw [hv]
            · exact absurd (List.mem_map.mpr ⟨r, hr, hrk.trans hk.symm⟩) hnotin
      · simp only [hk, if_false, List.mem_cons]
        constructor
        · rintro (h | ⟨_, r, hr, hrk, hv⟩)
          · cases h
          · exact Or.inr ⟨trivial, r, Or.inr hr, hrk, hv⟩
        · rintro (h | ⟨_, r, hr, hrk, hv⟩)
          · cases h
          · rcases hr with rfl | hr
            · exact absurd hrk hk
            · exact Or.inr ⟨trivial, r, hr, hrk, hv⟩

theorem interleaved_map_eq_flushAll (s0 c0 : String) (ss cs : List String)
    (hlen : ss.length = cs.length) :
    interleaved_map (s0 :: ss) (c0 :: cs) =
      some (flushAll [] (runs (s0 :: ss) (c0 :: cs)).dropLast) := by
  have hruns : runs (s0 :: ss) (c0 :: cs) = runsAux s0 [c0] (ss.zip cs) := by
    simp [runs]
  rw [hruns]
  simp only [interleaved_map]
  by_cases hc : c0 = "A"
  · subst hc
    simp only [countClick, if_true]
    exact scanFrom_wins ss cs s0 ["A"] [] (0 + 1) 0 hlen (by simp) (by simp)
  · simp only [countClick, hc, if_false]
    exact scanFrom_wins ss cs s0 [c0] [] 0 (0 + 1) hlen (by simp [List.count_singleton, hc])
      (by simp [List.count_singleton, hc])

theorem runs_keys (sessions clicks : List String) (hlen : sessions.length = clicks.length) :
    (runs sessions clicks).map Prod.fst = unique_copy sessions := by
  cases sessions with
  | nil => simp [runs, unique_copy]
  | cons s0 ss =>
    cases clicks with
    | nil => simp at hlen
    | cons c0 cs =>
      have hlen' : ss.length = cs.length := by simpa using hlen
      have hruns : runs (s0 :: ss) (c0 :: cs) = runsAux s0 [c0] (ss.zip cs) := by
        simp [runs]
      rw [hruns, runsAux_keys ss cs s0 [c0] hlen']

/-! ## The runs of an input are its events, grouped by neighbouring equal ids -/

theorem runsAux_events (rest : List (String × String)) :
    ∀ (id : String) (cur : List String),
      (runsAux id cur rest).flatMap (fun r => r.2.map fun c => (r.1, c)) =
        (cur.map fun c => (id, c)) ++ rest := by
  induction rest with
  | nil => intro id cur; simp [runsAux]
  | cons hd tl ih =>
    intro id cur
    obtain ⟨s, c⟩ := hd
    by_cases h : s = id
    · subst h
      simp [runsAux, ih]
    · simp [runsAux, h, ih]

theorem runs_events (sessions clicks : List String) :
    (runs sessions clicks).flatMap (fun r => r.2.map fun c => (r.1, c)) = sessions.zip clicks := by
  unfold runs
  cases h : sessions.zip clicks with
  | nil => simp
  | cons hd tl =>
    obtain ⟨s, c⟩ := hd
    simp [runsAux_events]

theorem runsAux_clicks_ne_nil (rest : List (String × String)) :
    ∀ (id : String) (cur : List String), cur ≠ [] → ∀ r ∈ runsAux id cur rest, r.2 ≠ [] := by
  induction rest with
  | nil =>
    intro id cur hcur r hr
    simp only [runsAux, List.mem_singleton] at hr
    subst hr
    exact hcur
  | cons hd tl ih =>
    intro id cur hcur r hr
    obtain ⟨s, c⟩ := hd
    by_cases h : s = id
    · simp only [runsAux, h, if_true] at hr
      exact ih id (cur ++ [c]) (by simp) r hr
    · simp only [runsAux, h, if_false, List.mem_cons] at hr
      rcases hr with rfl | hr
      · exact hcur
      · exact ih s [c] (by simp) r hr

theorem unique_copy_head (rest : List String) :
    ∀ y : String, ∃ t, unique_copy (y :: rest) = y :: t := by
  induction rest with
  | nil => intro y; exact ⟨[], rfl⟩
  | cons z r ih =>
    intro y
    by_cases h : y = z
    · subst h
      obtain ⟨t, ht⟩ := ih y
      exact ⟨t, by simp [unique_copy, ht]⟩
    · exact ⟨unique_copy (z :: r), by simp [unique_copy, h]⟩

theorem unique_copy_chain (l : List String) : (unique_copy l).Chain' (fun a b => a ≠ b) := by
  induction l with
  | nil => simp [unique_copy]
  | cons x rest ih =>
    cases rest with
    | nil => simp [unique_copy]
    | cons y r =>
      by_cases h : x = y
      · simpa [unique_copy, h] using ih
      · obtain ⟨t, ht⟩ := unique_copy_head r y
        simp only [unique_copy, h, if_false]
        rw [ht] at ih ⊢
        exact List.chain'_cons.mpr ⟨h, ih⟩

theorem runs_neighbours_differ (sessions clicks : List String)
    (hlen : sessions.length = clicks.length) :
    ((runs sessions clicks).map Prod.fst).Chain' (fun a b => a ≠ b) := by
  rw [runs_keys sessions clicks hlen]
  exact unique_copy_chain sessions

theorem mem_unique_copy (l : List String) (z : String) : z ∈ unique_copy l ↔ z ∈ l := by
  induction l with
  | nil => simp [unique_copy]
  | cons x rest ih =>
    cases rest with
    | nil => simp [unique_copy]
    | cons y r =>
      by_cases h : x = y
      · subst h
        simp only [unique_copy, if_true, ih, List.mem_cons]
        tauto
      · simp only [unique_copy, h, if_false, List.mem_cons] at ih ⊢
        rw [ih]

theorem contiguousIdx_cons (x y : String) (r : List String) :
    ContiguousIdx (x :: y :: r) ↔ ContiguousIdx (y :: r) ∧ (x = y ∨ x ∉ y :: r) := by
  constructor
  · intro h
    refine ⟨?_, ?_⟩
    · intro i j k hij hjk a hi hk
      have := h (i + 1) (j + 1) (k + 1) (by omega) (by omega) a (by simpa using hi)
        (by simpa using hk)
      simpa using this
    · by_cases hxy : x = y
      · exact Or.inl hxy
      · right
        intro hmem
        obtain ⟨n, hn⟩ := List.mem_iff_getElem?.mp hmem
        cases n with
        | zero =>
          simp only [List.getElem?_cons_zero, Option.some.injEq] at hn
          exact hxy hn.symm
        | succ n =>
          have := h 0 1 (n + 1 + 1) (by omega) (by omega) x (by simp) (by simpa using hn)
          simp only [List.getElem?_cons_succ, List.getElem?_cons_zero, Option.some.injEq] at this
          exact hxy this.symm
  · rintro ⟨ht, hor⟩ i j k hij hjk a hi hk
    cases i with
    | zero =>
      simp only [List.getElem?_cons_zero, Option.some.injEq] at hi
      subst hi
      obtain ⟨k', rfl⟩ : ∃ k', k = k' + 1 := ⟨k - 1, by omega⟩
      obtain ⟨j', rfl⟩ : ∃ j', j = j' + 1 := ⟨j - 1, by omega⟩
      simp only [List.getElem?_cons_succ] at hk ⊢
      have hmem : x ∈ y :: r := List.mem_iff_getElem?.mpr ⟨k', hk⟩
      have hxy : x = y := by
        rcases hor with h | h
        · exact h
        · exact absurd hmem h
      cases j' with
      | zero => simp [hxy]
      | succ j'' =>
        exact ht 0 (j'' + 1) k' (by omega) (by omega) x (by simp [hxy]) hk
    | succ i' =>
      obtain ⟨k', rfl⟩ : ∃ k', k = k' + 1 := ⟨k - 1, by omega⟩
      obtain ⟨j', rfl⟩ : ∃ j', j = j' + 1 := ⟨j - 1, by omega⟩
      simp only [List.getElem?_cons_succ] at hi hk ⊢
      exact ht i' j' k' (by omega) (by omega) a hi hk

theorem contiguous_iff_idx (sessions : List String) :
    Contiguous sessions ↔ ContiguousIdx sessions := by
  induction sessions with
  | nil =>
    constructor
    · intro _ i j k _ _ a hi
      simp at hi
    · intro _
      simp [Contiguous, unique_copy]
  | cons x rest ih =>
    cases rest with
    | nil =>
      constructor
      · intro _ i j k hij hjk a _ hk
        obtain ⟨k', rfl⟩ : ∃ k', k = k' + 1 := ⟨k - 1, by omega⟩
        simp at hk
      · intro _
        simp [Contiguous, unique_copy]
    | cons y r =>
      rw [contiguousIdx_cons, ← ih]
      by_cases h : x = y
      · simp [Contiguous, unique_copy, h]
      · simp only [Contiguous, unique_copy, h, if_false, List.nodup_cons, mem_unique_copy,
          false_or]
        tauto

/-! ## C1: the mapping built by `interleaved_map` -/

/-- C1: for an input with equally many sessions and clicks, at least one event
and contiguous sessions, `interleaved_map` returns a mapping whose entries are
exactly the runs other than the last one, each with the sign of (clicks equal
to "A") minus (other clicks), and the id of the last run is not a key. -/
theorem interleaved_map_runs (sessions clicks : List String)
    (hlen : sessions.length = clicks.length) (hpos : 1 ≤ sessions.length)
    (hcont : Contiguous sessions) :
    ∃ m, interleaved_map sessions clicks = some m ∧
      (∀ k v, WinsMap.find m k = some v ↔
        ∃ r ∈ (runs sessions clicks).dropLast, r.1 = k ∧ v = runOutcome r.2) ∧
      (∀ r, (runs sessions clicks).getLast? = some r → WinsMap.find m r.1 = none) := by
  have hkeys := runs_keys sessions clicks hlen
  have hnd : ((runs sessions clicks).map Prod.fst).Nodup := by
    rw [hkeys]; exact hcont
  have hnd' : ((runs sessions clicks).dropLast.map Prod.fst).Nodup :=
    hnd.sublist ((List.dropLast_sublist _).map Prod.fst)
  cases sessions with
  | nil => simp at hpos
  | cons s0 ss =>
    cases clicks with
    | nil => simp at hlen
    | cons c0 cs =>
      have hlen' : ss.length = cs.length := by simpa using hlen
      refine ⟨_, interleaved_map_eq_flushAll s0 c0 ss cs hlen', ?_, ?_⟩
      · intro k v
        rw [find_flushAll _ [] k v hnd']
        simp [WinsMap.find]
      · intro r hr
        have hsplit : runs (s0 :: ss) (c0 :: cs) = (runs (s0 :: ss) (c0 :: cs)).dropLast ++ [r] := by
          have := List.dropLast_append_getLast? r hr
          exact this.symm
        have hr_notin : r.1 ∉ (runs (s0 :: ss) (c0 :: cs)).dropLast.map Prod.fst := by
          rw [hsplit, List.map_append, List.nodup_append] at hnd
          intro hmem
          exact hnd.2.2 hmem (by simp)
        cases hf : WinsMap.find (flushAll [] (runs (s0 :: ss) (c0 :: cs)).dropLast) r.1 with
        | none => rfl
        | some v =>
          rw [find_flushAll _ [] r.1 v hnd'] at hf
          rcases hf with hf | ⟨_, r', hr', hk, _⟩
          · simp [WinsMap.find] at hf
          · exact absurd (List.mem_map.mpr ⟨r', hr', hk⟩) hr_notin

/-- Witness for C1 on the input `s1 s1 s2` with clicks `A A B`. -/
theorem interleaved_map_runs_witness :
    ∃ m, interleaved_map ["s1", "s1", "s2"] ["A", "A", "B"] = some m ∧
      (∀ k v, WinsMap.find m k = some v ↔
        ∃ r ∈ (runs ["s1", "s1", "s2"] ["A", "A", "B"]).dropLast, r.1 = k ∧ v = runOutcome r.2) ∧
      (∀ r, (runs ["s1", "s1", "s2"] ["A", "A", "B"]).getLast? = some r →
        WinsMap.find m r.1 = none) :=
  interleaved_map_runs ["s1", "s1", "s2"] ["A", "A", "B"] (by decide) (by decide) (by decide)

/-! ## C2, C3: the last session is missing from the tallies -/

/-- C2 (code defect): on sessions `s1 s1 s2` with clicks `A A B` the session
`s2` is not a key of the mapping and `winsA + winsB + ties` is 1, although the
input has 2 distinct session ids. -/
theorem interleaved_map_misses_last_session :
    interleaved_map ["s1", "s1", "s2"] ["A", "A", "B"] = some [("s1", 1)] ∧
      WinsMap.find [("s1", 1)] "s2" = none ∧
      (sessionTally [("s1", 1)]).total = 1 ∧
      distinctSessions ["s1", "s1", "s2"] = 2 := by
  decide

/-- C3 (code defect): on the one-session input `s1` with click `A` the mapping
is empty, the divisor `winsA + winsB + ties` is 0 and the preference is NaN. -/
theorem interleaved_preference_single_session_nan :
    interleaved_map ["s1"] ["A"] = some [] ∧
      (sessionTally []).total = 0 ∧
      interleaved_preference ["s1"] ["A"] = some Dbl.nan := by
  refine ⟨by decide, by decide, ?_⟩
  have h : interleaved_map ["s1"] ["A"] = some [] := by decide
  simp [interleaved_preference, h, sessionTally, Tally.preference, Dbl.div, Dbl.sub]

/-! ## Lemmas on tallies -/

theorem foldl_count (m : WinsMap) :
    ∀ t : Tally,
      m.foldl (fun t kv => t.count kv.2) t =
        { winsA := t.winsA + (m.countP fun kv => kv.2 = 1)
          winsB := t.winsB + (m.countP fun kv => kv.2 = -1)
          ties := t.ties + (m.countP fun kv => kv.2 = 0) } := by
  induction m with
  | nil => intro t; simp
  | cons hd tl ih =>
    intro t
    rw [List.foldl_cons, ih]
    by_cases h0 : hd.2 = 0
    · simp [Tally.count, h0, List.countP_cons]; omega
    · by_cases h1 : hd.2 = 1
      · simp [Tally.count, h1, List.countP_cons]; omega
      · by_cases h2 : hd.2 = -1
        · simp [Tally.count, h2, List.countP_cons]; omega
        · simp [Tally.count, h0, h1, h2, List.countP_cons]

theorem sessionTally_eq (m : WinsMap) :
    sessionTally m =
      { winsA := (m.countP fun kv => kv.2 = 1)
        winsB := (m.countP fun kv => kv.2 = -1)
        ties := (m.countP fun kv => kv.2 = 0) } := by
  simp [sessionTally, foldl_count]

theorem countP_valid (m : WinsMap) (h : ValidOutcomes m) :
    (m.countP fun kv => kv.2 = 1) + (m.countP fun kv => kv.2 = -1) +
      (m.countP fun kv => kv.2 = 0) = m.length := by
  induction m with
  | nil => simp
  | cons hd tl ih =>
    have htl : ValidOutcomes tl := fun kv hkv => h kv (List.mem_cons_of_mem _ hkv)
    have ih' := ih htl
    rcases h hd (List.mem_cons_self _ _) with h0 | h1 | h2
    · simp [List.countP_cons, h0]; omega
    · simp [List.countP_cons, h1]; omega
    · simp [List.countP_cons, h2]; omega

theorem validOutcomes_insert (m : WinsMap) (k : String) (v : Int) (hm : ValidOutcomes m)
    (hv : v = 0 ∨ v = 1 ∨ v = -1) : ValidOutcomes (WinsMap.insert m k v) := by
  unfold WinsMap.insert
  cases WinsMap.find m k with
  | some x => exact hm
  | none =>
    intro kv hkv
    rcases List.mem_append.mp hkv with h | h
    · exact hm kv h
    · simp only [List.mem_singleton] at h
      subst h
      exact hv

theorem sessionOutcome_valid (a b : Int) :
    sessionOutcome a b = 0 ∨ sessionOutcome a b = 1 ∨ sessionOutcome a b = -1 := by
  unfold sessionOutcome
  split_ifs <;> simp

theorem scanFrom_valid (ss : List String) :
    ∀ (cs : List String) (prev : String) (st st' : Scan),
      ValidOutcomes st.wins → scanFrom prev ss cs st = some st' → ValidOutcomes st'.wins := by
  induction ss with
  | nil =>
    intro cs prev st st' hv h
    simp only [scanFrom, Option.some.injEq] at h
    subst h
    exact hv
  | cons s ss ih =>
    intro cs prev st st' hv h
    cases cs with
    | nil => simp [scanFrom] at h
    | cons c cs =>
      simp only [scanFrom] at h
      refine ih cs s _ st' ?_ h
      have hflush : ValidOutcomes (flushSession prev st).wins :=
        validOutcomes_insert _ _ _ hv (sessionOutcome_valid _ _)
      by_cases hs : s = prev <;> by_cases hc : c = "A" <;>
        simp [countClick, hs, hc, hv, hflush]

theorem interleaved_map_valid (sessions clicks : List String) (m : WinsMap)
    (h : interleaved_map sessions clicks = some m) : ValidOutcomes m := by
  cases clicks with
  | nil => simp [interleaved_map] at h
  | cons c0 cs =>
    cases sessions with
    | nil =>
      by_cases hc : c0 = "A" <;> simp [interleaved_map, countClick, hc] at h <;>
        (subst h; intro kv hkv; simp at hkv)
    | cons s0 ss =>
      simp only [interleaved_map, Option.map_eq_some'] at h
      obtain ⟨st', hst, rfl⟩ := h
      refine scanFrom_valid ss cs s0 _ st' ?_ hst
      by_cases hc : c0 = "A" <;> simp [countClick, hc, ValidOutcomes]

theorem preference_bounds (A B T : ℚ) (hA : 0 ≤ A) (hB : 0 ≤ B) (hT : 0 ≤ T)
    (hN : 0 < A + B + T) :
    -(1 / 2) ≤ (A + T / 2) / (A + B + T) - 1 / 2 ∧ (A + T / 2) / (A + B + T) - 1 / 2 ≤ 1 / 2 := by
  have h0 : 0 ≤ (A + T / 2) / (A + B + T) := div_nonneg (by linarith) hN.le
  have h1 : (A + T / 2) / (A + B + T) ≤ 1 := (div_le_one hN).mpr (by linarith)
  constructor <;> linarith

theorem preference_of_valid (m : WinsMap) (hv : ValidOutcomes m) (hne : m ≠ []) :
    (sessionTally m).preference =
      Dbl.fin ((((m.countP fun kv => kv.2 = 1 : Nat) : ℚ) +
          ((m.countP fun kv => kv.2 = 0 : Nat) : ℚ) / 2) /
        (((m.countP fun kv => kv.2 = 1 : Nat) : ℚ) + ((m.countP fun kv => kv.2 = -1 : Nat) : ℚ) +
          ((m.countP fun kv => kv.2 = 0 : Nat) : ℚ)) - 1 / 2) := by
  have hlen := countP_valid m hv
  have hpos : 0 < m.length := List.length_pos.mpr hne
  have hsum : (((m.countP fun kv => kv.2 = 1 : Nat) : ℚ) +
      ((m.countP fun kv => kv.2 = -1 : Nat) : ℚ) +
      ((m.countP fun kv => kv.2 = 0 : Nat) : ℚ)) ≠ 0 := by
    have : (0 : ℚ) < ((m.countP fun kv => kv.2 = 1 : Nat) : ℚ) +
        ((m.countP fun kv => kv.2 = -1 : Nat) : ℚ) +
        ((m.countP fun kv => kv.2 = 0 : Nat) : ℚ) := by
      have h2 : (0 : ℚ) < ((m.length : Nat) : ℚ) := by exact_mod_cast hpos
      rw [← hlen] at h2
      push_cast at h2
      exact h2
    exact ne_of_gt this
  rw [sessionTally_eq]
  simp only [Tally.preference, Dbl.div]
  push_cast
  rw [if_neg hsum]
  rfl

/-! ## C4: range of the preference -/

/-- C4: when the outcome mapping of an input is non-empty, `interleaved_preference`
returns a finite value, computed in exact arithmetic, between -0.5 and 0.5. -/
theorem interleaved_preference_range (sessions clicks : List String) (m : WinsMap)
    (hm : interleaved_map sessions clicks = some m) (hne : m ≠ []) :
    ∃ v : ℚ, interleaved_preference sessions clicks = some (Dbl.fin v) ∧
      -(1 / 2) ≤ v ∧ v ≤ 1 / 2 := by
  have hv := interleaved_map_valid sessions clicks m hm
  have heq : interleaved_preference sessions clicks = some (sessionTally m).preference := by
    simp [interleaved_preference, hm]
  rw [heq, preference_of_valid m hv hne]
  refine ⟨_, rfl, ?_⟩
  · have hlen := countP_valid m hv
    have hpos : 0 < m.length := List.length_pos.mpr hne
    apply preference_bounds
    · exact Nat.cast_nonneg _
    · exact Nat.cast_nonneg _
    · exact Nat.cast_nonneg _
    · have h2 : (0 : ℚ) < ((m.length : Nat) : ℚ) := by exact_mod_cast hpos
      rw [← hlen] at h2
      push_cast at h2
      exact h2

/-- Witness for C4 on sessions `s1 s1 s2` with clicks `A A B`. -/
theorem interleaved_preference_range_witness :
    ∃ v : ℚ, interleaved_preference ["s1", "s1", "s2"] ["A", "A", "B"] = some (Dbl.fin v) ∧
      -(1 / 2) ≤ v ∧ v ≤ 1 / 2 :=
  interleaved_preference_range ["s1", "s1", "s2"] ["A", "A", "B"] [("s1", 1)] (by decide)
    (by decide)

/-! ## C5: exchanging the labels negates the preference -/

theorem find_negMap (m : WinsMap) (k : String) :
    WinsMap.find (negMap m) k = (WinsMap.find m k).map fun v => -v := by
  induction m with
  | nil => simp [negMap, WinsMap.find]
  | cons hd tl ih =>
    obtain ⟨a, b⟩ := hd
    have ih' : WinsMap.find (List.map (fun kv => (kv.1, -kv.2)) tl) k =
        (WinsMap.find tl k).map fun v => -v := ih
    by_cases h : a = k
    · simp [negMap, WinsMap.find, h]
    · simp [negMap, WinsMap.find, h, ih']

theorem insert_negMap (m : WinsMap) (k : String) (v : Int) :
    WinsMap.insert (negMap m) k (-v) = negMap (WinsMap.insert m k v) := by
  unfold WinsMap.insert
  rw [find_negMap]
  cases WinsMap.find m k with
  | some x => simp
  | none => simp [negMap]

theorem sessionOutcome_swap (a b : Int) : sessionOutcome b a = -sessionOutcome a b := by
  unfold sessionOutcome
  split_ifs <;> omega

theorem scanFrom_swap (ss : List String) :
    ∀ (cs : List String) (prev : String) (w : WinsMap) (a b : Int),
      (∀ c ∈ cs, c = "A" ∨ c = "B") →
      scanFrom prev ss (cs.map swapLabel) ⟨negMap w, b, a⟩ =
        (scanFrom prev ss cs ⟨w, a, b⟩).map fun st =>
          ⟨negMap st.wins, st.perSessionWinsB, st.perSessionWinsA⟩ := by
  induction ss with
  | nil =>
    intro cs prev w a b _
    simp [scanFrom]
  | cons s ss ih =>
    intro cs prev w a b hAB
    cases cs with
    | nil => simp [scanFrom]
    | cons c cs =>
      have hAB' : ∀ c ∈ cs, c = "A" ∨ c = "B" := fun x hx => hAB x (List.mem_cons_of_mem _ hx)
      simp only [List.map_cons, scanFrom]
      by_cases hs : s = prev
      · simp only [ne_eq, hs, not_true_eq_false, if_false]
        rcases hAB c (List.mem_cons_self _ _) with hc | hc
        · subst hc
          have h1 : swapLabel "A" = "B" := by decide
          have h2 : ¬ ("B" : String) = "A" := by decide
          simp only [h1, countClick, h2, if_false, if_true]
          exact ih cs prev w (a + 1) b hAB'
        · subst hc
          have h1 : swapLabel "B" = "A" := by decide
          have h2 : ¬ ("B" : String) = "A" := by decide
          simp only [h1, countClick, h2, if_false, if_true]
          exact ih cs prev w a (b + 1) hAB'
      · simp only [ne_eq, hs, not_false_eq_true, if_true]
        have hflush : flushSession prev ⟨negMap w, b, a⟩ =
            ⟨negMap (WinsMap.insert w prev (sessionOutcome a b)), 0, 0⟩ := by
          simp only [flushSession]
          rw [sessionOutcome_swap a b, insert_negMap]
        rw [hflush]
        rcases hAB c (List.mem_cons_self _ _) with hc | hc
        · subst hc
          have h1 : swapLabel "A" = "B" := by decide
          have h2 : ¬ ("B" : String) = "A" := by decide
          simp only [h1, countClick, flushSession, h2, if_false, if_true]
          exact ih cs s _ (0 + 1) 0 hAB'
        · subst hc
          have h1 : swapLabel "B" = "A" := by decide
          have h2 : ¬ ("B" : String) = "A" := by decide
          simp only [h1, countClick, flushSession, h2, if_false, if_true]
          exact ih cs s _ 0 (0 + 1) hAB'

theorem interleaved_map_swap (sessions clicks : List String)
    (hAB : ∀ c ∈ clicks, c = "A" ∨ c = "B") :
    interleaved_map sessions (clicks.map swapLabel) =
      (interleaved_map sessions clicks).map negMap := by
  cases clicks with
  | nil => simp [interleaved_map]
  | cons c0 cs =>
    have hAB' : ∀ c ∈ cs, c = "A" ∨ c = "B" := fun x hx => hAB x (List.mem_cons_of_mem _ hx)
    have h2 : ¬ ("B" : String) = "A" := by decide
    cases sessions with
    | nil =>
      rcases hAB c0 (List.mem_cons_self _ _) with hc | hc <;> subst hc <;>
        simp only [interleaved_map, countClick, negMap, List.map_cons, Option.map_some'] <;>
        split_ifs <;> rfl
    | cons s0 ss =>
      simp only [List.map_cons, interleaved_map]
      rcases hAB c0 (List.mem_cons_self _ _) with hc | hc
      · subst hc
        have h1 : swapLabel "A" = "B" := by decide
        simp only [h1, countClick, h2, if_false, if_true]
        have := scanFrom_swap ss cs s0 [] (0 + 1) 0 hAB'
        simp only [negMap, List.map_nil] at this
        rw [this]
        simp [Option.map_map, Function.comp_def, negMap]
      · subst hc
        have h1 : swapLabel "B" = "A" := by decide
        simp only [h1, countClick, h2, if_false, if_true]
        have := scanFrom_swap ss cs s0 [] 0 (0 + 1) hAB'
        simp only [negMap, List.map_nil] at this
        rw [this]
        simp [Option.map_map, Function.comp_def, negMap]

theorem countP_negMap (m : WinsMap) :
    ((negMap m).countP fun kv => kv.2 = 1) = (m.countP fun kv => kv.2 = -1) ∧
      ((negMap m).countP fun kv => kv.2 = -1) = (m.countP fun kv => kv.2 = 1) ∧
      ((negMap m).countP fun kv => kv.2 = 0) = (m.countP fun kv => kv.2 = 0) := by
  induction m with
  | nil => simp [negMap]
  | cons hd tl ih =>
    obtain ⟨i1, i2, i3⟩ := ih
    simp only [negMap] at i1 i2 i3
    simp only [negMap, List.map_cons, List.countP_cons, i1, i2, i3]
    refine ⟨?_, ?_, ?_⟩
    · congr 1
      by_cases h : hd.2 = -1
      · simp [h]
      · have : ¬ -hd.2 = 1 := by omega
        simp [h, this]
    · congr 1
      by_cases h : hd.2 = 1
      · simp [h]
      · have : ¬ hd.2 = 1 := h
        simp [h]
    · congr 1
      by_cases h : hd.2 = 0
      · simp [h]
      · simp [h]

theorem validOutcomes_negMap (m : WinsMap) (h : ValidOutcomes m) : ValidOutcomes (negMap m) := by
  intro kv hkv
  simp only [negMap, List.mem_map] at hkv
  obtain ⟨kv', hmem, rfl⟩ := hkv
  rcases h kv' hmem with h0 | h1 | h2
  · simp [h0]
  · simp [h1]
  · simp [h2]

/-- Exact-arithmetic part of the label exchange: with every click "A" or "B" and
a non-empty outcome mapping, exchanging "A" and "B" in the clicks negates the
value of `interleaved_preference` computed in exact rational arithmetic. -/
theorem interleaved_preference_swap (sessions clicks : List String) (m : WinsMap)
    (hAB : ∀ c ∈ clicks, c = "A" ∨ c = "B")
    (hm : interleaved_map sessions clicks = some m) (hne : m ≠ []) :
    ∃ v : ℚ, interleaved_preference sessions clicks = some (Dbl.fin v) ∧
      interleaved_preference sessions (clicks.map swapLabel) = some (Dbl.fin (-v)) := by
  have hv := interleaved_map_valid sessions clicks m hm
  have hne' : negMap m ≠ [] := by
    simpa [negMap] using hne
  have heq : interleaved_preference sessions clicks = some (sessionTally m).preference := by
    simp [interleaved_preference, hm]
  have heq' : interleaved_preference sessions (clicks.map swapLabel) =
      some (sessionTally (negMap m)).preference := by
    simp [interleaved_preference, interleaved_map_swap sessions clicks hAB, hm]
  rw [heq, heq', preference_of_valid m hv hne,
    preference_of_valid (negMap m) (validOutcomes_negMap m hv) hne']
  obtain ⟨c1, c2, c3⟩ := countP_negMap m
  rw [c1, c2, c3]
  refine ⟨_, rfl, ?_⟩
  have hlen := countP_valid m hv
  have hpos : 0 < m.length := List.length_pos.mpr hne
  have hN : (0 : ℚ) < ((m.countP fun kv => kv.2 = 1 : Nat) : ℚ) +
      ((m.countP fun kv => kv.2 = -1 : Nat) : ℚ) +
      ((m.countP fun kv => kv.2 = 0 : Nat) : ℚ) := by
    have h2 : (0 : ℚ) < ((m.length : Nat) : ℚ) := by exact_mod_cast hpos
    rw [← hlen] at h2
    push_cast at h2
    exact h2
  congr 2
  have hN' := ne_of_gt hN
  have hN'' : ((m.countP fun kv => kv.2 = -1 : Nat) : ℚ) +
      ((m.countP fun kv => kv.2 = 1 : Nat) : ℚ) +
      ((m.countP fun kv => kv.2 = 0 : Nat) : ℚ) ≠ 0 := by
    intro h
    apply hN'
    linarith
  field_simp
  ring

/-- The exact-arithmetic negation on sessions `s1 s1 s2` with clicks `A A B`. -/
theorem interleaved_preference_swap_witness :
    ∃ v : ℚ, interleaved_preference ["s1", "s1", "s2"] ["A", "A", "B"] = some (Dbl.fin v) ∧
      interleaved_preference ["s1", "s1", "s2"] (["A", "A", "B"].map swapLabel) =
        some (Dbl.fin (-v)) :=
  interleaved_preference_swap ["s1", "s1", "s2"] ["A", "A", "B"] [("s1", 1)] (by decide)
    (by decide) (by decide)

/-! ## C6: order of the session runs -/

/-- C6 (code defect): the inputs `s1 s2` with clicks `A B` and `s2 s1` with
clicks `B A` have the same runs in a different order, and
`interleaved_preference` returns 0.5 on the first and -0.5 on the second. -/
theorem interleaved_preference_depends_on_order :
    Contiguous ["s1", "s2"] ∧ Contiguous ["s2", "s1"] ∧
      (runs ["s1", "s2"] ["A", "B"]).Perm (runs ["s2", "s1"] ["B", "A"]) ∧
      interleaved_preference ["s1", "s2"] ["A", "B"] = some (Dbl.fin (1 / 2)) ∧
      interleaved_preference ["s2", "s1"] ["B", "A"] = some (Dbl.fin (-(1 / 2))) := by
  have h1 : interleaved_map ["s1", "s2"] ["A", "B"] = some [("s1", 1)] := by decide
  have h2 : interleaved_map ["s2", "s1"] ["B", "A"] = some [("s2", -1)] := by decide
  refine ⟨by decide, by decide, by decide, ?_, ?_⟩
  · simp only [interleaved_preference, h1, Option.map_some', sessionTally, List.foldl_cons,
      List.foldl_nil, Tally.count, Tally.preference, Dbl.div, Dbl.sub]
    norm_num [Dbl.sub]
  · simp only [interleaved_preference, h2, Option.map_some', sessionTally, List.foldl_cons,
      List.foldl_nil, Tally.count, Tally.preference, Dbl.div, Dbl.sub]
    norm_num [Dbl.sub]

/-! ## C7, C8: the bootstrap replicates -/

theorem sampleLast_valid : ValidSampler sampleLast := by
  intro i population size hne
  refine ⟨by simp [sampleLast], ?_⟩
  intro x hx
  simp only [sampleLast, List.mem_replicate] at hx
  obtain ⟨_, rfl⟩ := hx
  obtain ⟨y, hy⟩ : ∃ y, population.getLast? = some y := by
    cases h : population.getLast? with
    | none => exact absurd (List.getLast?_eq_none_iff.mp h) hne
    | some y => exact ⟨y, rfl⟩
  rw [hy]
  exact List.mem_of_getLast?_eq_some hy

/-- C7 (code defect): on sessions `s1 s2` with clicks `A A` every session has
more "A" clicks than other clicks, and when the sampler draws `s2 s2` from the
unique ids the replicate is 0 and not 0.5. -/
theorem interleaved_bootstraps_all_A_not_half :
    (∀ r ∈ runs ["s1", "s2"] ["A", "A"], runOutcome r.2 = 1) ∧
      ValidSampler sampleLast ∧
      sampleLast 0 (uniques ["s1", "s2"]) (uniques ["s1", "s2"]).length = ["s2", "s2"] ∧
      interleaved_bootstraps sampleLast ["s1", "s2"] ["A", "A"] 1 = some [Dbl.fin 0] := by
  have h1 : interleaved_map ["s1", "s2"] ["A", "A"] = some [("s1", 1)] := by decide
  have h2 : sampleLast 0 (uniques ["s1", "s2"]) (uniques ["s1", "s2"]).length = ["s2", "s2"] := by
    decide
  refine ⟨by decide, sampleLast_valid, h2, ?_⟩
  simp only [interleaved_bootstraps, h1, Option.map_some', bootstrapLoop, h2]
  have h3 : resampleTally [("s1", 1)] ["s2", "s2"] =
      ({ winsA := 0, winsB := 0, ties := 2 }, [("s1", 1), ("s2", 0)]) := by decide
  rw [h3]
  norm_num [Tally.preference, Dbl.div, Dbl.sub]

theorem interleaved_map_isSome (sessions clicks : List String)
    (hlen : sessions.length = clicks.length) (hpos : 1 ≤ sessions.length) :
    ∃ m, interleaved_map sessions clicks = some m := by
  cases sessions with
  | nil => simp at hpos
  | cons s0 ss =>
    cases clicks with
    | nil => simp at hlen
    | cons c0 cs =>
      exact ⟨_, interleaved_map_eq_flushAll s0 c0 ss cs (by simpa using hlen)⟩

theorem bootstrapLoop_length (sample : Nat → List String → Nat → List String)
    (uniq : List String) (n : Nat) :
    ∀ (i : Nat) (wins : WinsMap), (bootstrapLoop sample uniq n i wins).length = n := by
  induction n with
  | zero => intro i wins; simp [bootstrapLoop]
  | succ n ih => intro i wins; simp [bootstrapLoop, ih]

/-- C8: for an input with equally many sessions and clicks and at least one
event, any sampler and any replicate count, `interleaved_bootstraps` returns a
sequence of exactly that many values. -/
theorem interleaved_bootstraps_length (sample : Nat → List String → Nat → List String)
    (sessions clicks : List String) (bootstraps : Nat)
    (hlen : sessions.length = clicks.length) (hpos : 1 ≤ sessions.length) :
    ∃ l, interleaved_bootstraps sample sessions clicks bootstraps = some l ∧
      l.length = bootstraps := by
  obtain ⟨m, hm⟩ := interleaved_map_isSome sessions clicks hlen hpos
  refine ⟨bootstrapLoop sample (uniques sessions) bootstraps 0 m, ?_, ?_⟩
  · simp [interleaved_bootstraps, hm]
  · exact bootstrapLoop_length sample (uniques sessions) bootstraps 0 m

/-- Witness for C8 with three replicates on sessions `s1 s1 s2`. -/
theorem interleaved_bootstraps_length_witness :
    ∃ l, interleaved_bootstraps sampleLast ["s1", "s1", "s2"] ["A", "A", "B"] 3 = some l ∧
      l.length = 3 :=
  interleaved_bootstraps_length sampleLast ["s1", "s1", "s2"] ["A", "A", "B"] 3 (by decide)
    (by decide)

/-! ## C9: the tally of one replicate -/

theorem find_valid (m : WinsMap) (h : ValidOutcomes m) (k : String) (v : Int)
    (hf : WinsMap.find m k = some v) : v = 0 ∨ v = 1 ∨ v = -1 := by
  induction m with
  | nil => simp [WinsMap.find] at hf
  | cons hd tl ih =>
    obtain ⟨a, b⟩ := hd
    by_cases hk : a = k
    · simp only [WinsMap.find, hk, if_true, Option.some.injEq] at hf
      subst hf
      exact h (a, b) (List.mem_cons_self _ _)
    · simp only [WinsMap.find, hk, if_false] at hf
      exact ih (fun kv hkv => h kv (List.mem_cons_of_mem _ hkv)) hf

theorem extends_refl (wins0 : WinsMap) : Extends wins0 wins0 :=
  fun _ => Or.inl rfl

theorem subscript_extends (wins0 w : WinsMap) (s : String) (h : Extends wins0 w) :
    (WinsMap.subscript w s).1 = (WinsMap.find wins0 s).getD 0 ∧
      Extends wins0 (WinsMap.subscript w s).2 := by
  unfold WinsMap.subscript
  cases hw : WinsMap.find w s with
  | some v =>
    refine ⟨?_, h⟩
    rcases h s with h1 | ⟨h1, h2⟩
    · rw [← h1, hw]; rfl
    · rw [h1]
      rw [hw] at h2
      simpa using h2
  | none =>
    have h0 : WinsMap.find wins0 s = none := by
      rcases h s with h1 | ⟨h1, _⟩
      · rw [← h1, hw]
      · exact h1
    refine ⟨by rw [h0]; rfl, ?_⟩
    intro k
    show WinsMap.find (w ++ [(s, 0)]) k = _ ∨ (_ ∧ WinsMap.find (w ++ [(s, 0)]) k = _)
    rw [find_append_single]
    cases hk : WinsMap.find w k with
    | some x =>
      have := h k
      rw [hk] at this
      exact this
    | none =>
      have hk0 : WinsMap.find wins0 k = none := by
        rcases h k with h1 | ⟨h1, _⟩
        · rw [← h1, hk]
        · exact h1
      by_cases hsk : s = k
      · right
        simp [hsk, hk0]
      · left
        simp [hsk, hk0]

theorem resampleTally_fold (wins0 : WinsMap) (hv : ValidOutcomes wins0) (drawn : List String) :
    ∀ (t : Tally) (w : WinsMap), Extends wins0 w →
      (drawn.foldl
          (fun acc session =>
            ((acc.1).count (WinsMap.subscript acc.2 session).1,
              (WinsMap.subscript acc.2 session).2))
          (t, w)).1 =
        { winsA := t.winsA + (drawn.countP fun s => WinsMap.find wins0 s = some 1)
          winsB := t.winsB + (drawn.countP fun s => WinsMap.find wins0 s = some (-1))
          ties := t.ties +
            (drawn.countP fun s => WinsMap.find wins0 s = some 0 ∨ WinsMap.find wins0 s = none) } ∧
      Extends wins0
        (drawn.foldl
          (fun acc session =>
            ((acc.1).count (WinsMap.subscript acc.2 session).1,
              (WinsMap.subscript acc.2 session).2))
          (t, w)).2 := by
  induction drawn with
  | nil =>
    intro t w hw
    exact ⟨by simp, hw⟩
  | cons s rest ih =>
    intro t w hw
    obtain ⟨hval, hext⟩ := subscript_extends wins0 w s hw
    rw [List.foldl_cons]
    obtain ⟨ih1, ih2⟩ := ih (t.count (WinsMap.subscript w s).1) (WinsMap.subscript w s).2 hext
    refine ⟨?_, ih2⟩
    rw [ih1, hval]
    cases hf : WinsMap.find wins0 s with
    | none =>
      simp [Tally.count, List.countP_cons, hf]
      omega
    | some v =>
      rcases find_valid wins0 hv s v hf with h | h | h <;> subst h <;>
        simp [Tally.count, List.countP_cons, hf] <;> omega

theorem resampleTally_spec (wins0 w : WinsMap) (hv : ValidOutcomes wins0) (hw : Extends wins0 w)
    (drawn : List String) :
    (resampleTally w drawn).1 =
        { winsA := (drawn.countP fun s => WinsMap.find wins0 s = some 1)
          winsB := (drawn.countP fun s => WinsMap.find wins0 s = some (-1))
          ties :=
            (drawn.countP fun s => WinsMap.find wins0 s = some 0 ∨ WinsMap.find wins0 s = none) } ∧
      Extends wins0 (resampleTally w drawn).2 := by
  have h := resampleTally_fold wins0 hv drawn { winsA := 0, winsB := 0, ties := 0 } w hw
  simpa [resampleTally] using h

theorem winsAfter_extends (sample : Nat → List String → Nat → List String) (uniq : List String)
    (wins0 : WinsMap) (hv : ValidOutcomes wins0) (k : Nat) :
    ∀ (j : Nat) (w : WinsMap), Extends wins0 w → Extends wins0 (winsAfter sample uniq k j w) := by
  induction k with
  | zero => intro j w hw; exact hw
  | succ k ih =>
    intro j w hw
    exact ih (j + 1) _ (resampleTally_spec wins0 w hv hw _).2

theorem bootstrapLoop_getElem (sample : Nat → List String → Nat → List String)
    (uniq : List String) (n : Nat) :
    ∀ (j : Nat) (w : WinsMap) (k : Nat), k < n →
      (bootstrapLoop sample uniq n j w)[k]? =
        some (resampleTally (winsAfter sample uniq k j w)
          (sample (j + k) uniq uniq.length)).1.preference := by
  induction n with
  | zero => intro j w k hk; omega
  | succ n ih =>
    intro j w k hk
    cases k with
    | zero => simp [bootstrapLoop, winsAfter]
    | succ k =>
      simp only [bootstrapLoop, List.getElem?_cons_succ, winsAfter]
      rw [ih (j + 1) _ k (by omega)]
      have : j + 1 + k = j + (k + 1) := by omega
      rw [this]

theorem countP_drawn_total (wins0 : WinsMap) (hv : ValidOutcomes wins0) (drawn : List String) :
    (drawn.countP fun s => WinsMap.find wins0 s = some 1) +
        (drawn.countP fun s => WinsMap.find wins0 s = some (-1)) +
        (drawn.countP fun s => WinsMap.find wins0 s = some 0 ∨ WinsMap.find wins0 s = none) =
      drawn.length := by
  induction drawn with
  | nil => simp
  | cons s rest ih =>
    cases hf : WinsMap.find wins0 s with
    | none => simp [List.countP_cons, hf, -Bool.decide_or]; omega
    | some v =>
      rcases find_valid wins0 hv s v hf with h | h | h <;> subst h <;>
        simp [List.countP_cons, hf, -Bool.decide_or] <;> omega

/-- C9: in replicate `i` of `interleaved_bootstraps`, with `drawn` the ids the
sampler returned, the tallies count the drawn ids mapped to +1 as wins of A,
those mapped to -1 as wins of B and those mapped to 0 or absent from the outcome
mapping as ties, so `winsA + winsB + ties` is the number of drawn ids, and the
value stored for the replicate is `(#(+1) + #(0 or absent) / 2) / #drawn - 0.5`. -/
theorem interleaved_bootstraps_replicate (sample : Nat → List String → Nat → List String)
    (sessions clicks : List String) (wins0 : WinsMap) (bootstraps i : Nat)
    (hm : interleaved_map sessions clicks = some wins0) (hi : i < bootstraps) :
    (resampleTally (winsAfter sample (uniques sessions) i 0 wins0)
        (sample i (uniques sessions) (uniques sessions).length)).1 =
        { winsA := ((sample i (uniques sessions) (uniques sessions).length).countP
            fun s => WinsMap.find wins0 s = some 1)
          winsB := ((sample i (uniques sessions) (uniques sessions).length).countP
            fun s => WinsMap.find wins0 s = some (-1))
          ties := ((sample i (uniques sessions) (uniques sessions).length).countP
            fun s => WinsMap.find wins0 s = some 0 ∨ WinsMap.find wins0 s = none) } ∧
      (resampleTally (winsAfter sample (uniques sessions) i 0 wins0)
        (sample i (uniques sessions) (uniques sessions).length)).1.total =
        (sample i (uniques sessions) (uniques sessions).length).length ∧
      ∃ l, interleaved_bootstraps sample sessions clicks bootstraps = some l ∧
        l[i]? = some (Dbl.sub
          (Dbl.div
            ((((sample i (uniques sessions) (uniques sessions).length).countP
                fun s => WinsMap.find wins0 s = some 1 : Nat) : ℚ) +
              (((sample i (uniques sessions) (uniques sessions).length).countP
                fun s => WinsMap.find wins0 s = some 0 ∨ WinsMap.find wins0 s = none : Nat) : ℚ) / 2)
            (((sample i (uniques sessions) (uniques sessions).length).length : Nat) : ℚ))
          (1 / 2)) := by
  have hv := interleaved_map_valid sessions clicks wins0 hm
  have hext := winsAfter_extends sample (uniques sessions) wins0 hv i 0 wins0 (extends_refl wins0)
  have hspec := (resampleTally_spec wins0 _ hv hext
    (sample i (uniques sessions) (uniques sessions).length)).1
  have htot := countP_drawn_total wins0 hv (sample i (uniques sessions) (uniques sessions).length)
  refine ⟨hspec, ?_, ?_⟩
  · rw [hspec]
    simp only [Tally.total]
    exact_mod_cast htot
  · refine ⟨bootstrapLoop sample (uniques sessions) bootstraps 0 wins0,
      by simp [interleaved_bootstraps, hm], ?_⟩
    rw [bootstrapLoop_getElem sample (uniques sessions) bootstraps 0 wins0 i hi]
    simp only [Nat.zero_add]
    rw [hspec]
    simp only [Tally.preference]
    rw [← htot]
    push_cast
    rfl

/-- Witness for C9: the first replicate on sessions `s1 s2` with clicks `A A`
when the sampler draws `s2 s2`. -/
theorem interleaved_bootstraps_replicate_witness :
    (resampleTally (winsAfter sampleLast (uniques ["s1", "s2"]) 0 0 [("s1", 1)])
        (sampleLast 0 (uniques ["s1", "s2"]) (uniques ["s1", "s2"]).length)).1 =
        { winsA := ((sampleLast 0 (uniques ["s1", "s2"]) (uniques ["s1", "s2"]).length).countP
            fun s => WinsMap.find [("s1", 1)] s = some 1)
          winsB := ((sampleLast 0 (uniques ["s1", "s2"]) (uniques ["s1", "s2"]).length).countP
            fun s => WinsMap.find [("s1", 1)] s = some (-1))
          ties := ((sampleLast 0 (uniques ["s1", "s2"]) (uniques ["s1", "s2"]).length).countP
            fun s => WinsMap.find [("s1", 1)] s = some 0 ∨ WinsMap.find [("s1", 1)] s = none) } ∧
      (resampleTally (winsAfter sampleLast (uniques ["s1", "s2"]) 0 0 [("s1", 1)])
        (sampleLast 0 (uniques ["s1", "s2"]) (uniques ["s1", "s2"]).length)).1.total =
        (sampleLast 0 (uniques ["s1", "s2"]) (uniques ["s1", "s2"]).length).length ∧
      ∃ l, interleaved_bootstraps sampleLast ["s1", "s2"] ["A", "A"] 1 = some l ∧
        l[0]? = some (Dbl.sub
          (Dbl.div
            ((((sampleLast 0 (uniques ["s1", "s2"]) (uniques ["s1", "s2"]).length).countP
                fun s => WinsMap.find [("s1", 1)] s = some 1 : Nat) : ℚ) +
              (((sampleLast 0 (uniques ["s1", "s2"]) (uniques ["s1", "s2"]).length).countP
                fun s => WinsMap.find [("s1", 1)] s = some 0 ∨
                  WinsMap.find [("s1", 1)] s = none : Nat) : ℚ) / 2)
            (((sampleLast 0 (uniques ["s1", "s2"]) (uniques ["s1", "s2"]).length).length : Nat) : ℚ))
          (1 / 2)) :=
  interleaved_bootstraps_replicate sampleLast ["s1", "s2"] ["A", "A"] [("s1", 1)] 1 0 (by decide)
    (by decide)

/-! ## C10: the search loop of `exact_binom` -/

theorem exact_binom_loop_spec (cond : Nat → Bool) (fuel : Nat) :
    ∀ i : Nat, i + fuel = INT_MAX → 0 < fuel →
      ∃ n, exact_binom_loop cond fuel i = some n ∧ i + 1 ≤ n ∧ n ≤ INT_MAX ∧
        (∀ m, i + 1 ≤ m → m < n → cond m = true) ∧ (n < INT_MAX → cond n = false) := by
  induction fuel with
  | zero => intro i _ h; omega
  | succ fuel ih =>
    intro i hsum _
    by_cases hmax : i + 1 = INT_MAX
    · refine ⟨i + 1, by simp [exact_binom_loop, hmax], le_refl _, by omega, ?_, ?_⟩
      · intro m h1 h2; omega
      · intro h; omega
    · by_cases hc : cond (i + 1) = true
      · obtain ⟨n, hn, h1, h2, h3, h4⟩ := ih (i + 1) (by omega) (by omega)
        refine ⟨n, by simp [exact_binom_loop, hmax, hc, hn], by omega, h2, ?_, h4⟩
        intro m hm1 hm2
        by_cases hm : m = i + 1
        · rw [hm]; exact hc
        · exact h3 m (by omega) hm2
      · have hc' : cond (i + 1) = false := by simpa using hc
        refine ⟨i + 1, by simp [exact_binom_loop, hmax, hc'], le_refl _, by omega, ?_, ?_⟩
        · intro m h1 h2; omega
        · intro _; exact hc'

theorem end_condition_eq_not_below (cdf quantile : Nat → ℚ → ℚ → ℚ) (p0 delta alpha beta : ℚ)
    (n : Nat) (hbeta : beta ≠ 0) :
    end_condition cdf quantile p0 delta alpha beta n =
      !deviation_below cdf quantile p0 delta alpha beta n := by
  simp only [end_condition, deviation_below, Dbl.div, if_neg hbeta, Dbl.ge, Dbl.lt]
  by_cases h : (1 / 100 : ℚ) ≤ |cdf n (p0 + delta) (quantile n p0 (1 - alpha)) - beta| / beta
  · rw [decide_eq_true h, decide_eq_false (not_lt.mpr h)]
    rfl
  · rw [decide_eq_false h, decide_eq_true (not_le.mp h)]
    rfl

/-- C10 as stated fails: with a cdf that is constantly 0 and `power = 1` the
target `beta` is 0 and the deviation is 0/0; the loop stops at once and returns
11, although the deviation is below 0.01 for no sample size at all. -/
theorem exact_binom_nan_stops :
    exact_binom (fun _ _ _ => 0) (fun _ _ _ => 0) (3 / 4) (1 / 4) (1 / 20) 1 true = some 11 ∧
      11 ≠ INT_MAX ∧
      ∀ n, deviation_below (fun _ _ _ => 0) (fun _ _ _ => 0) (3 / 4) (1 / 4) (1 / 20 / 2) (1 - 1) n =
        false := by
  refine ⟨?_, by decide, ?_⟩
  · have hc : end_condition (fun _ _ _ => 0) (fun _ _ _ => 0) (3 / 4) (1 / 4)
        (if true = true then (1 / 20 : ℚ) / 2 else 1 / 20) (1 - 1) (10 + 1) = false := by
      simp [end_condition, Dbl.div, Dbl.ge]
    have hne : ¬ (10 + 1 = INT_MAX) := by decide
    show exact_binom_loop _ (2147483636 + 1) 10 = some 11
    rw [exact_binom_loop, if_neg hne, hc]
    rfl
  · intro n
    simp [deviation_below, Dbl.div, Dbl.lt]

/-- C10 (amended): for any cdf and quantile and any arguments, `exact_binom`
returns a sample size `n` with `11 ≤ n ≤ INT_MAX`; the comparison
`deviation >= 0.01` holds at every size from 11 up to `n - 1`, and fails at `n`
unless `n` is `INT_MAX`.  So `n` is the least size in `[11, INT_MAX)` at which
the comparison is false, and `INT_MAX` when there is none. -/
theorem exact_binom_least (cdf quantile : Nat → ℚ → ℚ → ℚ)
    (constant_prop effect_size alpha power : ℚ) (two_tail : Bool) :
    ∃ n, exact_binom cdf quantile constant_prop effect_size alpha power two_tail = some n ∧
      11 ≤ n ∧ n ≤ INT_MAX ∧
      (∀ m, 11 ≤ m → m < n →
        end_condition cdf quantile constant_prop effect_size
          (if two_tail then alpha / 2 else alpha) (1 - power) m = true) ∧
      (n < INT_MAX →
        end_condition cdf quantile constant_prop effect_size
          (if two_tail then alpha / 2 else alpha) (1 - power) n = false) := by
  have h := exact_binom_loop_spec
    (end_condition cdf quantile constant_prop effect_size
      (if two_tail then alpha / 2 else alpha) (1 - power))
    (INT_MAX - 10) 10 (by decide) (by decide)
  exact h

/-! ## C11: the two-tailed search -/

/-- C11: the two-tailed search is the one-tailed search at half the significance
level, for any cdf, quantile and arguments. -/
theorem exact_binom_two_tail_halves_alpha (cdf quantile : Nat → ℚ → ℚ → ℚ)
    (constant_prop effect_size alpha power : ℚ) :
    exact_binom cdf quantile constant_prop effect_size alpha power true =
      exact_binom cdf quantile constant_prop effect_size (alpha / 2) power false := by
  simp [exact_binom]

/-! ## C12: inputs of different lengths and empty inputs -/

theorem scanFrom_eq_none (ss : List String) :
    ∀ (cs : List String) (prev : String) (st : Scan),
      scanFrom prev ss cs st = none ↔ cs.length < ss.length := by
  induction ss with
  | nil => intro cs prev st; simp [scanFrom]
  | cons s ss ih =>
    intro cs prev st
    cases cs with
    | nil => simp [scanFrom]
    | cons c cs =>
      simp only [scanFrom, ih, List.length_cons]
      omega

theorem interleaved_map_eq_none (sessions clicks : List String) :
    interleaved_map sessions clicks = none ↔ clicks = [] ∨ clicks.length < sessions.length := by
  cases clicks with
  | nil => simp [interleaved_map]
  | cons c0 cs =>
    cases sessions with
    | nil => simp [interleaved_map]
    | cons s0 ss =>
      simp only [interleaved_map, Option.map_eq_none', scanFrom_eq_none, List.length_cons,
        false_or]
      constructor
      · intro h; omega
      · intro h
        rcases h with h | h
        · cases h
        · omega

/-- C12 as stated fails: with 2 sessions and 3 clicks, `interleaved_map`,
`interleaved_preference` and `interleaved_bootstraps` all return a result. -/
theorem interleaved_map_accepts_longer_clicks :
    (["s1", "s2"] : List String).length ≠ (["A", "B", "A"] : List String).length ∧
      interleaved_map ["s1", "s2"] ["A", "B", "A"] = some [("s1", 1)] ∧
      interleaved_preference ["s1", "s2"] ["A", "B", "A"] = some (Dbl.fin (1 / 2)) ∧
      (interleaved_bootstraps sampleLast ["s1", "s2"] ["A", "B", "A"] 1).isSome = true := by
  have h1 : interleaved_map ["s1", "s2"] ["A", "B", "A"] = some [("s1", 1)] := by decide
  refine ⟨by decide, h1, ?_, ?_⟩
  · simp only [interleaved_preference, h1, Option.map_some', sessionTally, List.foldl_cons,
      List.foldl_nil, Tally.count, Tally.preference, Dbl.div, Dbl.sub]
    norm_num [Dbl.sub]
  · simp [interleaved_bootstraps, h1]

/-- C12 (amended): none of the three functions checks its input or raises an
error.  Each returns a result whenever `clicks` is non-empty and at least as
long as `sessions`; exactly when `clicks` is empty or shorter than `sessions`
the loop reads `clicks` out of bounds and there is no result. -/
theorem interleaved_map_fails_iff (sample : Nat → List String → Nat → List String)
    (sessions clicks : List String) (bootstraps : Nat) :
    (interleaved_map sessions clicks = none ↔
        clicks = [] ∨ clicks.length < sessions.length) ∧
      (interleaved_preference sessions clicks = none ↔
        clicks = [] ∨ clicks.length < sessions.length) ∧
      (interleaved_bootstraps sample sessions clicks bootstraps = none ↔
        clicks = [] ∨ clicks.length < sessions.length) := by
  refine ⟨interleaved_map_eq_none sessions clicks, ?_, ?_⟩
  · simp only [interleaved_preference, Option.map_eq_none']
    exact interleaved_map_eq_none sessions clicks
  · simp only [interleaved_bootstraps, Option.map_eq_none']
    exact interleaved_map_eq_none sessions clicks

/-! ## C16: sign of the preference -/

theorem preference_closed_form (A B T : ℚ) (hN : A + B + T ≠ 0) :
    (A + T / 2) / (A + B + T) - 1 / 2 = (A - B) / (2 * (A + B + T)) := by
  field_simp
  ring

/-- C16: when the outcome mapping `m` of an input is non-empty, the preference
is `(winsA - winsB) / (2 * (winsA + winsB + ties))` in exact arithmetic; it is 0
exactly when `winsA = winsB`, positive exactly when `winsA > winsB` and negative
exactly when `winsA < winsB`. -/
theorem interleaved_preference_sign (sessions clicks : List String) (m : WinsMap)
    (hm : interleaved_map sessions clicks = some m) (hne : m ≠ []) :
    ∃ v : ℚ, interleaved_preference sessions clicks = some (Dbl.fin v) ∧
      v = (((sessionTally m).winsA : ℚ) - ((sessionTally m).winsB : ℚ)) /
        (2 * (((sessionTally m).winsA : ℚ) + ((sessionTally m).winsB : ℚ) +
          ((sessionTally m).ties : ℚ))) ∧
      (v = 0 ↔ (sessionTally m).winsA = (sessionTally m).winsB) ∧
      (0 < v ↔ (sessionTally m).winsB < (sessionTally m).winsA) ∧
      (v < 0 ↔ (sessionTally m).winsA < (sessionTally m).winsB) := by
  have hv := interleaved_map_valid sessions clicks m hm
  have heq : interleaved_preference sessions clicks = some (sessionTally m).preference := by
    simp [interleaved_preference, hm]
  have hlen := countP_valid m hv
  have hpos : 0 < m.length := List.length_pos.mpr hne
  have hN : (0 : ℚ) < ((m.countP fun kv => kv.2 = 1 : Nat) : ℚ) +
      ((m.countP fun kv => kv.2 = -1 : Nat) : ℚ) +
      ((m.countP fun kv => kv.2 = 0 : Nat) : ℚ) := by
    have h2 : (0 : ℚ) < ((m.length : Nat) : ℚ) := by exact_mod_cast hpos
    rw [← hlen] at h2
    push_cast at h2
    exact h2
  have h2N : (0 : ℚ) < 2 * (((m.countP fun kv => kv.2 = 1 : Nat) : ℚ) +
      ((m.countP fun kv => kv.2 = -1 : Nat) : ℚ) +
      ((m.countP fun kv => kv.2 = 0 : Nat) : ℚ)) := by linarith
  have hA : (sessionTally m).winsA = ((m.countP fun kv => kv.2 = 1 : Nat) : Int) := by
    rw [sessionTally_eq]
  have hB : (sessionTally m).winsB = ((m.countP fun kv => kv.2 = -1 : Nat) : Int) := by
    rw [sessionTally_eq]
  have hT : (sessionTally m).ties = ((m.countP fun kv => kv.2 = 0 : Nat) : Int) := by
    rw [sessionTally_eq]
  rw [heq, preference_of_valid m hv hne, preference_closed_form _ _ _ (ne_of_gt hN), hA, hB, hT]
  refine ⟨_, rfl, ?_, ?_, ?_, ?_⟩
  · push_cast
    rfl
  · rw [div_eq_zero_iff]
    simp only [ne_of_gt h2N, or_false, sub_eq_zero]
    constructor <;> intro h <;> exact_mod_cast h
  · rw [div_pos_iff_of_pos_right h2N, sub_pos]
    constructor <;> intro h <;> exact_mod_cast h
  · rw [div_neg_iff]
    simp only [not_lt.mpr h2N.le, and_false, false_or, h2N, and_true, sub_neg]
    constructor <;> intro h <;> exact_mod_cast h

/-- Witness for C16 on sessions `s1 s1 s2` with clicks `A A B`. -/
theorem interleaved_preference_sign_witness :
    ∃ v : ℚ, interleaved_preference ["s1", "s1", "s2"] ["A", "A", "B"] = some (Dbl.fin v) ∧
      v = (((sessionTally [("s1", 1)]).winsA : ℚ) - ((sessionTally [("s1", 1)]).winsB : ℚ)) /
        (2 * (((sessionTally [("s1", 1)]).winsA : ℚ) + ((sessionTally [("s1", 1)]).winsB : ℚ) +
          ((sessionTally [("s1", 1)]).ties : ℚ))) ∧
      (v = 0 ↔ (sessionTally [("s1", 1)]).winsA = (sessionTally [("s1", 1)]).winsB) ∧
      (0 < v ↔ (sessionTally [("s1", 1)]).winsB < (sessionTally [("s1", 1)]).winsA) ∧
      (v < 0 ↔ (sessionTally [("s1", 1)]).winsA < (sessionTally [("s1", 1)]).winsB) :=
  interleaved_preference_sign ["s1", "s1", "s2"] ["A", "A", "B"] [("s1", 1)] (by decide)
    (by decide)

/-! ## C17: a session id with several runs -/

theorem find_flushAll_first (rs : List (String × List String)) :
    ∀ (w : WinsMap) (k : String),
      WinsMap.find (flushAll w rs) k =
        match WinsMap.find w k with
        | some x => some x
        | none => (rs.find? fun r => r.1 = k).map fun r => runOutcome r.2 := by
  induction rs with
  | nil =>
    intro w k
    cases h : WinsMap.find w k <;> simp [flushAll, h]
  | cons r0 rs ih =>
    intro w k
    have hstep : flushAll w (r0 :: rs) = flushAll (WinsMap.insert w r0.1 (runOutcome r0.2)) rs := by
      simp [flushAll]
    rw [hstep, ih, find_insert]
    cases hw : WinsMap.find w k with
    | some x => simp
    | none =>
      by_cases hk : r0.1 = k
      · simp [hk, List.find?_cons]
      · simp [hk, List.find?_cons]

theorem insert_of_find (m : WinsMap) (k : String) (v v' : Int)
    (h : WinsMap.find m k = some v) : WinsMap.insert m k v' = m := by
  simp [WinsMap.insert, h]

/-- C17: for an input with equally many sessions and clicks and at least one
event, contiguous or not, the outcome stored for an id is the outcome of the
first run with that id among the runs followed by another run (all runs but
the last); an insertion for a key already present leaves the mapping unchanged,
so later runs of the id do not overwrite it. -/
theorem interleaved_map_first_run (sessions clicks : List String)
    (hlen : sessions.length = clicks.length) (hpos : 1 ≤ sessions.length) :
    ∃ m, interleaved_map sessions clicks = some m ∧
      (∀ k, WinsMap.find m k =
        ((runs sessions clicks).dropLast.find? fun r => r.1 = k).map fun r => runOutcome r.2) ∧
      (∀ k v v', WinsMap.find m k = some v → WinsMap.insert m k v' = m) := by
  cases sessions with
  | nil => simp at hpos
  | cons s0 ss =>
    cases clicks with
    | nil => simp at hlen
    | cons c0 cs =>
      have hlen' : ss.length = cs.length := by simpa using hlen
      refine ⟨_, interleaved_map_eq_flushAll s0 c0 ss cs hlen', ?_, ?_⟩
      · intro k
        rw [find_flushAll_first]
        simp [WinsMap.find]
      · intro k v v' h
        exact insert_of_find _ k v v' h

/-- Witness for C17: sessions `a b a c` with clicks `A B B A`, where `a` has two
runs. -/
theorem interleaved_map_first_run_witness :
    ∃ m, interleaved_map ["a", "b", "a", "c"] ["A", "B", "B", "A"] = some m ∧
      (∀ k, WinsMap.find m k =
        ((runs ["a", "b", "a", "c"] ["A", "B", "B", "A"]).dropLast.find? fun r => r.1 = k).map
          fun r => runOutcome r.2) ∧
      (∀ k v v', WinsMap.find m k = some v → WinsMap.insert m k v' = m) :=
  interleaved_map_first_run ["a", "b", "a", "c"] ["A", "B", "B", "A"] (by decide) (by decide)

/-! ## C18: a replicate depends on its own draw only -/

theorem bootstrapLoop_value (sample : Nat → List String → Nat → List String)
    (uniq : List String) (wins0 : WinsMap) (hv : ValidOutcomes wins0) (n i : Nat) (hi : i < n) :
    (bootstrapLoop sample uniq n 0 wins0)[i]? =
      some (replicateTally wins0 (sample i uniq uniq.length)).preference := by
  have hext := winsAfter_extends sample uniq wins0 hv i 0 wins0 (extends_refl wins0)
  have hspec := (resampleTally_spec wins0 _ hv hext (sample i uniq uniq.length)).1
  rw [bootstrapLoop_getElem sample uniq n 0 wins0 i hi]
  simp only [Nat.zero_add]
  rw [hspec]
  rfl

/-- C18: the value of replicate `i` of `interleaved_bootstraps` is determined by
the outcome mapping of the input and the list drawn in round `i`; two samplers
that agree in round `i` give the same value there, whatever they draw in the
other rounds and whatever keys those rounds add to the map. -/
theorem interleaved_bootstraps_replicate_frame
    (sample sample' : Nat → List String → Nat → List String) (sessions clicks : List String)
    (wins0 : WinsMap) (bootstraps i : Nat)
    (hm : interleaved_map sessions clicks = some wins0) (hi : i < bootstraps)
    (hsame : sample i (uniques sessions) (uniques sessions).length =
      sample' i (uniques sessions) (uniques sessions).length) :
    ∃ l l', interleaved_bootstraps sample sessions clicks bootstraps = some l ∧
      interleaved_bootstraps sample' sessions clicks bootstraps = some l' ∧
      l[i]? = l'[i]? ∧
      l[i]? = some (replicateTally wins0
        (sample i (uniques sessions) (uniques sessions).length)).preference := by
  have hv := interleaved_map_valid sessions clicks wins0 hm
  refine ⟨bootstrapLoop sample (uniques sessions) bootstraps 0 wins0,
    bootstrapLoop sample' (uniques sessions) bootstraps 0 wins0,
    by simp [interleaved_bootstraps, hm], by simp [interleaved_bootstraps, hm], ?_, ?_⟩
  · rw [bootstrapLoop_value sample (uniques sessions) wins0 hv bootstraps i hi,
      bootstrapLoop_value sample' (uniques sessions) wins0 hv bootstraps i hi, hsame]
  · exact bootstrapLoop_value sample (uniques sessions) wins0 hv bootstraps i hi

/-- Witness for C18: on sessions `s1 s2` with clicks `A A` two samplers draw
`s2 s2` in round 1; in round 0 one draws `s2 s2`, which adds the missing `s2`
to the map, and the other draws `s1 s1`. -/
theorem interleaved_bootstraps_replicate_frame_witness :
    ∃ l l', interleaved_bootstraps sampleLast ["s1", "s2"] ["A", "A"] 2 = some l ∧
      interleaved_bootstraps (sampleHeadExcept 1) ["s1", "s2"] ["A", "A"] 2 = some l' ∧
      l[1]? = l'[1]? ∧
      l[1]? = some (replicateTally [("s1", 1)]
        (sampleLast 1 (uniques ["s1", "s2"]) (uniques ["s1", "s2"]).length)).preference :=
  interleaved_bootstraps_replicate_frame sampleLast (sampleHeadExcept 1) ["s1", "s2"] ["A", "A"]
    [("s1", 1)] 2 1 (by decide) (by decide) (by decide)

/-! ## C13, C19: the confidence interval -/

theorem sorted_getD_le (s : List ℚ) (hs : s.Sorted (fun a b => a ≤ b)) (a b : Nat) (hab : a ≤ b)
    (hb : b < s.length) : s.getD a 0 ≤ s.getD b 0 := by
  rw [List.getD_eq_getElem s 0 hb, List.getD_eq_getElem s 0 (lt_of_le_of_lt hab hb)]
  rcases Nat.eq_or_lt_of_le hab with h | h
  · subst h; exact le_refl _
  · exact List.pairwise_iff_getElem.mp hs a b (lt_of_le_of_lt hab hb) hb h

theorem interpolate_bounds (s : List ℚ) (hs : s.Sorted (fun a b => a ≤ b)) (h : ℚ) (h0 : 0 ≤ h)
    (hn : h ≤ (s.length : ℚ) - 1) :
    ⌈h⌉.toNat < s.length ∧ ⌊h⌋.toNat ≤ ⌈h⌉.toNat ∧
      s.getD ⌊h⌋.toNat 0 ≤ interpolate s h ∧ interpolate s h ≤ s.getD ⌈h⌉.toNat 0 := by
  have hc : ⌈h⌉ ≤ (s.length : ℤ) - 1 := by
    rw [Int.ceil_le]; push_cast; exact hn
  have hc0 : 0 ≤ ⌈h⌉ := Int.ceil_nonneg h0
  have hlt : ⌈h⌉.toNat < s.length := by omega
  have hfc : ⌊h⌋.toNat ≤ ⌈h⌉.toNat := Int.toNat_le_toNat (Int.floor_le_ceil h)
  have hle := sorted_getD_le s hs _ _ hfc hlt
  have hg0 : 0 ≤ h - ⌊h⌋ := sub_nonneg.mpr (Int.floor_le h)
  have hg1 : h - ⌊h⌋ ≤ 1 := by linarith [Int.lt_floor_add_one h]
  refine ⟨hlt, hfc, ?_, ?_⟩
  · unfold interpolate
    nlinarith [mul_nonneg hg0 (sub_nonneg.mpr hle)]
  · unfold interpolate
    nlinarith [mul_nonneg (sub_nonneg.mpr hg1) (sub_nonneg.mpr hle)]

theorem interpolate_mono (s : List ℚ) (hs : s.Sorted (fun a b => a ≤ b)) (h1 h2 : ℚ)
    (h0 : 0 ≤ h1) (h12 : h1 ≤ h2) (hn : h2 ≤ (s.length : ℚ) - 1) :
    interpolate s h1 ≤ interpolate s h2 := by
  obtain ⟨hlt1, hfc1, hlo1, hhi1⟩ := interpolate_bounds s hs h1 h0 (le_trans h12 hn)
  obtain ⟨hlt2, hfc2, hlo2, hhi2⟩ := interpolate_bounds s hs h2 (le_trans h0 h12) hn
  by_cases hcase : ⌈h1⌉ ≤ ⌊h2⌋
  · have : s.getD ⌈h1⌉.toNat 0 ≤ s.getD ⌊h2⌋.toNat 0 :=
      sorted_getD_le s hs _ _ (Int.toNat_le_toNat hcase) (lt_of_le_of_lt hfc2 hlt2)
    linarith
  · have hcase' : ⌊h2⌋ < ⌈h1⌉ := not_le.mp hcase
    have hf12 : ⌊h1⌋ ≤ ⌊h2⌋ := Int.floor_mono h12
    have hc1 : ⌈h1⌉ ≤ ⌊h1⌋ + 1 := Int.ceil_le_floor_add_one h1
    have hfeq : ⌊h2⌋ = ⌊h1⌋ := by omega
    have hc12 : ⌈h1⌉ ≤ ⌈h2⌉ := Int.ceil_mono h12
    have hc2 : ⌈h2⌉ ≤ ⌊h2⌋ + 1 := Int.ceil_le_floor_add_one h2
    have hceq2 : ⌈h2⌉ = ⌈h1⌉ := by omega
    have hle := sorted_getD_le s hs _ _ hfc1 hlt1
    unfold interpolate
    rw [hfeq, hceq2]
    nlinarith [mul_nonneg (sub_nonneg.mpr h12) (sub_nonneg.mpr hle)]

theorem quantile7_mono (xs : List Dbl) (q : ℚ) (qs : List ℚ)
    (hfin : finiteValues xs = some (q :: qs)) (p r : ℚ) (hp : 0 ≤ p) (hpr : p ≤ r)
    (hr : r ≤ 1) : Dbl.le (quantile7 xs p) (quantile7 xs r) = true := by
  have hs : ((q :: qs).insertionSort fun a b => a ≤ b).Sorted (fun a b => a ≤ b) :=
    List.sorted_insertionSort _ _
  have hlen : (((q :: qs).insertionSort fun a b => a ≤ b).length : ℚ) - 1 = (qs.length : ℚ) := by
    rw [List.length_insertionSort]
    simp
  have hq0 : (0 : ℚ) ≤ (qs.length : ℚ) := Nat.cast_nonneg _
  have h := interpolate_mono _ hs ((qs.length : ℚ) * p) ((qs.length : ℚ) * r)
    (mul_nonneg hq0 hp) (mul_le_mul_of_nonneg_left hpr hq0)
    (by rw [hlen]; exact mul_le_of_le_one_right hq0 hr)
  simp only [quantile7, hfin, Dbl.le]
  exact decide_eq_true h

theorem bootstraps_two_rounds :
    interleaved_bootstraps (sampleHeadExcept 1) ["s1", "s2"] ["A", "A"] 2 =
      some [Dbl.fin (1 / 2), Dbl.fin 0] := by
  have h1 : interleaved_map ["s1", "s2"] ["A", "A"] = some [("s1", 1)] := by decide
  have h2 : sampleHeadExcept 1 0 (uniques ["s1", "s2"]) (uniques ["s1", "s2"]).length =
      ["s1", "s1"] := by decide
  have h3 : sampleHeadExcept 1 (0 + 1) (uniques ["s1", "s2"]) (uniques ["s1", "s2"]).length =
      ["s2", "s2"] := by decide
  have h4 : resampleTally [("s1", 1)] ["s1", "s1"] =
      ({ winsA := 2, winsB := 0, ties := 0 }, [("s1", 1)]) := by decide
  have h5 : resampleTally [("s1", 1)] ["s2", "s2"] =
      ({ winsA := 0, winsB := 0, ties := 2 }, [("s1", 1), ("s2", 0)]) := by decide
  simp only [interleaved_bootstraps, h1, Option.map_some', bootstrapLoop, h2, h3, h4, h5]
  norm_num [Tally.preference, Dbl.div, Dbl.sub]

theorem bootstraps_one_round :
    interleaved_bootstraps sampleLast ["s1", "s2"] ["A", "A"] 1 = some [Dbl.fin 0] := by
  have h1 : interleaved_map ["s1", "s2"] ["A", "A"] = some [("s1", 1)] := by decide
  have h2 : sampleLast 0 (uniques ["s1", "s2"]) (uniques ["s1", "s2"]).length = ["s2", "s2"] := by
    decide
  have h3 : resampleTally [("s1", 1)] ["s2", "s2"] =
      ({ winsA := 0, winsB := 0, ties := 2 }, [("s1", 1), ("s2", 0)]) := by decide
  simp only [interleaved_bootstraps, h1, Option.map_some', bootstrapLoop, h2, h3]
  norm_num [Tally.preference, Dbl.div, Dbl.sub]

/-- C13 as stated fails: with the type-7 quantile, one replicate gives the
interval `0, 0, 0` and zero replicates give three NA values; neither call fails. -/
theorem interleaved_confint_short_distribution :
    interleaved_confint quantile7 sampleLast ["s1", "s2"] ["A", "A"] 1 (19 / 20) =
        some { point_est := Dbl.fin 0, lower := Dbl.fin 0, upper := Dbl.fin 0 } ∧
      interleaved_confint quantile7 sampleLast ["s1", "s2"] ["A", "A"] 0 (19 / 20) =
        some { point_est := Dbl.nan, lower := Dbl.nan, upper := Dbl.nan } := by
  constructor
  · simp [interleaved_confint, bootstraps_one_round, quantile7, finiteValues, interpolate]
  · have h1 : interleaved_map ["s1", "s2"] ["A", "A"] = some [("s1", 1)] := by decide
    simp [interleaved_confint, interleaved_bootstraps, h1, bootstrapLoop, quantile7, finiteValues]

/-- C13 (amended): `interleaved_confint` does not look at the size of the
bootstrap distribution.  For an input with equally many sessions and clicks and
at least one event, and every replicate count, it returns the three values the
quantile function gives for the distribution of that many replicates at 0.5,
`alpha / 2` and `1 - alpha / 2`. -/
theorem interleaved_confint_returns (quantile : List Dbl → ℚ → Dbl)
    (sample : Nat → List String → Nat → List String) (sessions clicks : List String)
    (bootstraps : Nat) (confidence : ℚ)
    (hlen : sessions.length = clicks.length) (hpos : 1 ≤ sessions.length) :
    ∃ preferences, interleaved_bootstraps sample sessions clicks bootstraps = some preferences ∧
      preferences.length = bootstraps ∧
      interleaved_confint quantile sample sessions clicks bootstraps confidence =
        some { point_est := quantile preferences (1 / 2)
               lower := quantile preferences ((1 - confidence) / 2)
               upper := quantile preferences (1 - (1 - confidence) / 2) } := by
  obtain ⟨m, hm⟩ := interleaved_map_isSome sessions clicks hlen hpos
  refine ⟨bootstrapLoop sample (uniques sessions) bootstraps 0 m, ?_, ?_, ?_⟩
  · simp [interleaved_bootstraps, hm]
  · exact bootstrapLoop_length sample (uniques sessions) bootstraps 0 m
  · simp [interleaved_confint, interleaved_bootstraps, hm]

/-- Witness for C13 (amended) with a single replicate. -/
theorem interleaved_confint_returns_witness :
    ∃ preferences,
      interleaved_bootstraps sampleLast ["s1", "s2"] ["A", "A"] 1 = some preferences ∧
      preferences.length = 1 ∧
      interleaved_confint quantile7 sampleLast ["s1", "s2"] ["A", "A"] 1 (19 / 20) =
        some { point_est := quantile7 preferences (1 / 2)
               lower := quantile7 preferences ((1 - 19 / 20) / 2)
               upper := quantile7 preferences (1 - (1 - 19 / 20) / 2) } :=
  interleaved_confint_returns quantile7 sampleLast ["s1", "s2"] ["A", "A"] 1 (19 / 20)
    (by decide) (by decide)

/-- C19: for a confidence between 0 and 1, a bootstrap distribution
`preferences` and a quantile function that is non-decreasing in its probability
argument on `[0, 1]` for that distribution, the result of `interleaved_confint`
satisfies `lower <= point.est <= upper`. -/
theorem interleaved_confint_ordered (quantile : List Dbl → ℚ → Dbl)
    (sample : Nat → List String → Nat → List String) (sessions clicks : List String)
    (bootstraps : Nat) (confidence : ℚ) (preferences : List Dbl)
    (hb : interleaved_bootstraps sample sessions clicks bootstraps = some preferences)
    (h0 : 0 ≤ confidence) (h1 : confidence ≤ 1)
    (hmono : ∀ p q : ℚ, 0 ≤ p → p ≤ q → q ≤ 1 →
      Dbl.le (quantile preferences p) (quantile preferences q) = true) :
    ∃ r, interleaved_confint quantile sample sessions clicks bootstraps confidence = some r ∧
      Dbl.le r.lower r.point_est = true ∧ Dbl.le r.point_est r.upper = true := by
  refine ⟨{ point_est := quantile preferences (1 / 2)
            lower := quantile preferences ((1 - confidence) / 2)
            upper := quantile preferences (1 - (1 - confidence) / 2) }, ?_, ?_, ?_⟩
  · simp [interleaved_confint, hb]
  · exact hmono _ _ (by linarith) (by linarith) (by norm_num)
  · exact hmono _ _ (by norm_num) (by linarith) (by linarith)

/-- Witness for C19: the type-7 quantile on the two replicates `0.5, 0` at
confidence 0.95. -/
theorem interleaved_confint_ordered_witness :
    ∃ r, interleaved_confint quantile7 (sampleHeadExcept 1) ["s1", "s2"] ["A", "A"] 2 (19 / 20) =
        some r ∧
      Dbl.le r.lower r.point_est = true ∧ Dbl.le r.point_est r.upper = true :=
  interleaved_confint_ordered quantile7 (sampleHeadExcept 1) ["s1", "s2"] ["A", "A"] 2 (19 / 20)
    [Dbl.fin (1 / 2), Dbl.fin 0] bootstraps_two_rounds (by norm_num) (by norm_num)
    (fun p q hp hpq hq =>
      quantile7_mono [Dbl.fin (1 / 2), Dbl.fin 0] (1 / 2) [0] rfl p q hp hpq hq)

/-! ## The binomial cdf and quantile -/

theorem binom_cdf_natCast (n : Nat) (p : ℚ) (k : Nat) : binom_cdf n p (k : ℚ) = cdfNat n p k := by
  have h : ¬ ((k : ℚ) < 0) := not_lt.mpr (Nat.cast_nonneg k)
  simp [binom_cdf, h]

theorem binom_pmf_nonneg (n : Nat) (p : ℚ) (j : Nat) (hp0 : 0 ≤ p) (hp1 : p ≤ 1) :
    0 ≤ binom_pmf n p j := by
  unfold binom_pmf
  have h1 : (0 : ℚ) ≤ 1 - p := by linarith
  positivity

theorem cdfNat_mono (n : Nat) (p : ℚ) (hp0 : 0 ≤ p) (hp1 : p ≤ 1) (k k' : Nat) (h : k ≤ k') :
    cdfNat n p k ≤ cdfNat n p k' := by
  unfold cdfNat
  apply Finset.sum_le_sum_of_subset_of_nonneg
  · intro x hx
    simp only [Finset.mem_range] at hx ⊢
    omega
  · intro i _ _
    exact binom_pmf_nonneg n p i hp0 hp1

theorem binom_pmf_succ (n : Nat) (p : ℚ) (k : Nat) :
    binom_pmf (n + 1) p (k + 1) = (1 - p) * binom_pmf n p (k + 1) + p * binom_pmf n p k := by
  unfold binom_pmf
  rw [Nat.choose_succ_succ]
  by_cases h : k + 1 ≤ n
  · have e1 : n + 1 - (k + 1) = (n - (k + 1)) + 1 := by omega
    have e2 : n - k = (n - (k + 1)) + 1 := by omega
    rw [e1, e2]
    push_cast
    ring
  · have hc : n.choose (k + 1) = 0 := Nat.choose_eq_zero_of_lt (by omega)
    have e1 : n + 1 - (k + 1) = n - k := by omega
    rw [hc, e1]
    push_cast
    ring

theorem binom_pmf_succ_zero (n : Nat) (p : ℚ) :
    binom_pmf (n + 1) p 0 = (1 - p) * binom_pmf n p 0 := by
  unfold binom_pmf
  simp
  ring

theorem cdfNat_succ (n : Nat) (p : ℚ) (k : Nat) :
    cdfNat (n + 1) p k = cdfNat n p k - p * binom_pmf n p k := by
  induction k with
  | zero =>
    simp only [cdfNat, zero_add, Finset.sum_range_one]
    rw [binom_pmf_succ_zero]
    ring
  | succ k ih =>
    have e1 : cdfNat (n + 1) p (k + 1) = cdfNat (n + 1) p k + binom_pmf (n + 1) p (k + 1) := by
      simp only [cdfNat]
      rw [Finset.sum_range_succ]
    have e2 : cdfNat n p (k + 1) = cdfNat n p k + binom_pmf n p (k + 1) := by
      simp only [cdfNat]
      rw [Finset.sum_range_succ]
    rw [e1, e2, ih, binom_pmf_succ]
    ring

theorem cdfNat_anti (p : ℚ) (hp0 : 0 ≤ p) (hp1 : p ≤ 1) (k n n' : Nat) (h : n ≤ n') :
    cdfNat n' p k ≤ cdfNat n p k := by
  induction n' with
  | zero =>
    have : n = 0 := by omega
    subst this
    exact le_refl _
  | succ m ih =>
    rcases Nat.eq_or_lt_of_le h with h' | h'
    · subst h'; exact le_refl _
    · have := ih (by omega)
      rw [cdfNat_succ]
      have hpm := mul_nonneg hp0 (binom_pmf_nonneg m p k hp0 hp1)
      linarith

theorem quantileFrom_spec (n : Nat) (p prob : ℚ) (fuel : Nat) :
    ∀ k : Nat, k ≤ quantileFrom n p prob fuel k ∧ quantileFrom n p prob fuel k ≤ k + fuel ∧
      (∀ j, k ≤ j → j < quantileFrom n p prob fuel k → cdfNat n p j < prob) ∧
      (quantileFrom n p prob fuel k < k + fuel →
        prob ≤ cdfNat n p (quantileFrom n p prob fuel k)) := by
  induction fuel with
  | zero =>
    intro k
    refine ⟨le_refl _, le_refl _, ?_, ?_⟩
    · intro j h1 h2; simp only [quantileFrom] at h2; omega
    · intro h; simp only [quantileFrom] at h; omega
  | succ fuel ih =>
    intro k
    by_cases hc : prob ≤ cdfNat n p k
    · have e : quantileFrom n p prob (fuel + 1) k = k := by
        simp only [quantileFrom, hc, if_true]
      rw [e]
      refine ⟨le_refl _, by omega, ?_, fun _ => hc⟩
      intro j h1 h2; omega
    · have e : quantileFrom n p prob (fuel + 1) k = quantileFrom n p prob fuel (k + 1) := by
        simp only [quantileFrom, hc, if_false]
      rw [e]
      obtain ⟨h1, h2, h3, h4⟩ := ih (k + 1)
      refine ⟨by omega, by omega, ?_, ?_⟩
      · intro j hj1 hj2
        by_cases hjk : j = k
        · subst hjk; exact not_le.mp hc
        · exact h3 j (by omega) hj2
      · intro h; exact h4 (by omega)

theorem choose_step (n j : Nat) : n.choose j * (n - j) / (j + 1) = n.choose (j + 1) := by
  rw [← Nat.choose_succ_right_eq]
  exact Nat.mul_div_cancel _ (Nat.succ_pos j)

theorem sumLoop_eq (n a c : Nat) (s : Nat) :
    ∀ j acc : Nat, sumLoop n a c s j (n.choose j) acc =
      acc + Finset.sum (Finset.range s) fun i => n.choose (j + i) * a ^ (j + i) * c ^ (n - (j + i)) := by
  induction s with
  | zero => intro j acc; simp [sumLoop]
  | succ s ih =>
    intro j acc
    rw [sumLoop, choose_step, ih (j + 1), Finset.sum_range_succ']
    have : ∀ i, j + 1 + i = j + (i + 1) := fun i => by omega
    simp only [this, Nat.add_zero]
    omega

theorem lowerSum_eq (n a c k : Nat) :
    lowerSum n a c k =
      Finset.sum (Finset.range (k + 1)) fun i => n.choose i * a ^ i * c ^ (n - i) := by
  have h := sumLoop_eq n a c (k + 1) 0 0
  simp only [Nat.choose_zero_right, Nat.zero_add] at h
  exact h

theorem binom_pmf_scaled (n a c j : Nat) (h : 0 < a + c) :
    binom_pmf n ((a : ℚ) / ((a + c : Nat) : ℚ)) j * ((a + c : Nat) : ℚ) ^ n =
      ((n.choose j * a ^ j * c ^ (n - j) : Nat) : ℚ) := by
  have hb : ((a + c : Nat) : ℚ) ≠ 0 := by exact_mod_cast (ne_of_gt h)
  have e : (1 - (a : ℚ) / ((a + c : Nat) : ℚ)) = (c : ℚ) / ((a + c : Nat) : ℚ) := by
    rw [eq_div_iff hb, sub_mul, div_mul_cancel₀ _ hb]
    push_cast
    ring
  rw [Nat.cast_mul, Nat.cast_mul, Nat.cast_pow, Nat.cast_pow]
  generalize ((a + c : Nat) : ℚ) = B at hb e ⊢
  by_cases hj : j ≤ n
  · have hn : B ^ n = B ^ j * B ^ (n - j) := by
      rw [← pow_add]
      congr 1
      omega
    unfold binom_pmf
    rw [e, div_pow, div_pow, hn]
    field_simp
  · have hc : n.choose j = 0 := Nat.choose_eq_zero_of_lt (by omega)
    unfold binom_pmf
    simp [hc]

theorem cdfNat_scaled (n a c k : Nat) (h : 0 < a + c) :
    cdfNat n ((a : ℚ) / ((a + c : Nat) : ℚ)) k =
      (lowerSum n a c k : ℚ) / ((a + c : Nat) : ℚ) ^ n := by
  have hb : ((a + c : Nat) : ℚ) ^ n ≠ 0 := by
    apply pow_ne_zero
    exact_mod_cast (ne_of_gt h)
  rw [eq_div_iff hb, lowerSum_eq]
  unfold cdfNat
  rw [Finset.sum_mul, Nat.cast_sum]
  apply Finset.sum_congr rfl
  intro j _
  exact binom_pmf_scaled n a c j h

theorem cdfNat_ge_of (n a c k u v : Nat) (h : 0 < a + c) (hv : 0 < v)
    (hle : u * (a + c) ^ n ≤ v * lowerSum n a c k) :
    (u : ℚ) / v ≤ cdfNat n ((a : ℚ) / ((a + c : Nat) : ℚ)) k := by
  have hb : (0 : ℚ) < ((a + c : Nat) : ℚ) ^ n := by
    apply pow_pos
    exact_mod_cast h
  have hv' : (0 : ℚ) < v := by exact_mod_cast hv
  rw [cdfNat_scaled n a c k h, div_le_div_iff₀ hv' hb]
  have : ((u * (a + c) ^ n : Nat) : ℚ) ≤ ((v * lowerSum n a c k : Nat) : ℚ) := by exact_mod_cast hle
  push_cast at this ⊢
  linarith

theorem cdfNat_gt_of (n a c k u v : Nat) (h : 0 < a + c) (hv : 0 < v)
    (hlt : u * (a + c) ^ n < v * lowerSum n a c k) :
    (u : ℚ) / v < cdfNat n ((a : ℚ) / ((a + c : Nat) : ℚ)) k := by
  have hb : (0 : ℚ) < ((a + c : Nat) : ℚ) ^ n := by
    apply pow_pos
    exact_mod_cast h
  have hv' : (0 : ℚ) < v := by exact_mod_cast hv
  rw [cdfNat_scaled n a c k h, div_lt_div_iff₀ hv' hb]
  have : ((u * (a + c) ^ n : Nat) : ℚ) < ((v * lowerSum n a c k : Nat) : ℚ) := by exact_mod_cast hlt
  push_cast at this ⊢
  linarith

theorem cdfNat_lt_of (n a c k u v : Nat) (h : 0 < a + c) (hv : 0 < v)
    (hlt : v * lowerSum n a c k < u * (a + c) ^ n) :
    cdfNat n ((a : ℚ) / ((a + c : Nat) : ℚ)) k < (u : ℚ) / v := by
  have hb : (0 : ℚ) < ((a + c : Nat) : ℚ) ^ n := by
    apply pow_pos
    exact_mod_cast h
  have hv' : (0 : ℚ) < v := by exact_mod_cast hv
  rw [cdfNat_scaled n a c k h, div_lt_div_iff₀ hb hv']
  have : ((v * lowerSum n a c k : Nat) : ℚ) < ((u * (a + c) ^ n : Nat) : ℚ) := by exact_mod_cast hlt
  push_cast at this ⊢
  linarith

theorem quantileFrom_ge (n : Nat) (p prob : ℚ) (hp0 : 0 ≤ p) (hp1 : p ≤ 1) (k : Nat)
    (hk : k + 1 ≤ n) (hlt : cdfNat n p k < prob) : k + 1 ≤ quantileFrom n p prob n 0 := by
  obtain ⟨_, _, _, h4⟩ := quantileFrom_spec n p prob n 0
  by_contra hcon
  have hq : quantileFrom n p prob n 0 ≤ k := by omega
  have h5 := h4 (by omega)
  have h6 := cdfNat_mono n p hp0 hp1 _ _ hq
  linarith

theorem quantileFrom_eq (n : Nat) (p prob : ℚ) (hp0 : 0 ≤ p) (hp1 : p ≤ 1) (k : Nat)
    (hk : k + 1 ≤ n) (hlt : cdfNat n p k < prob) (hge : prob ≤ cdfNat n p (k + 1)) :
    quantileFrom n p prob n 0 = k + 1 := by
  have h1 := quantileFrom_ge n p prob hp0 hp1 k hk hlt
  obtain ⟨_, _, h3, _⟩ := quantileFrom_spec n p prob n 0
  by_contra hcon
  have hq : k + 1 < quantileFrom n p prob n 0 := by omega
  have := h3 (k + 1) (by omega) hq
  linarith

theorem binom_cdf_quantile (n : Nat) (p1 p0 prob : ℚ) :
    binom_cdf n p1 (binom_quantile n p0 prob) = cdfNat n p1 (quantileFrom n p0 prob n 0) := by
  unfold binom_quantile
  exact binom_cdf_natCast n p1 _

theorem end_condition_eq (cdf quantile : Nat → ℚ → ℚ → ℚ) (p0 delta alpha beta : ℚ) (i : Nat)
    (hbeta : beta ≠ 0) :
    end_condition cdf quantile p0 delta alpha beta i =
      decide (1 / 100 ≤ |cdf i (p0 + delta) (quantile i p0 (1 - alpha)) - beta| / beta) := by
  simp only [end_condition, Dbl.div, if_neg hbeta, Dbl.ge]

theorem end_condition_binom_true (p0 delta alpha beta : ℚ) (i : Nat) (hbeta : 0 < beta)
    (h : beta + beta / 100 ≤ cdfNat i (p0 + delta) (quantileFrom i p0 (1 - alpha) i 0)) :
    end_condition binom_cdf binom_quantile p0 delta alpha beta i = true := by
  rw [end_condition_eq _ _ _ _ _ _ _ (ne_of_gt hbeta), binom_cdf_quantile, decide_eq_true_iff,
    le_div_iff₀ hbeta]
  have : 0 ≤ cdfNat i (p0 + delta) (quantileFrom i p0 (1 - alpha) i 0) - beta := by linarith
  rw [abs_of_nonneg this]
  linarith

theorem end_condition_binom_true_low (p0 delta alpha beta : ℚ) (i : Nat) (hbeta : 0 < beta)
    (h : cdfNat i (p0 + delta) (quantileFrom i p0 (1 - alpha) i 0) ≤ beta - beta / 100) :
    end_condition binom_cdf binom_quantile p0 delta alpha beta i = true := by
  rw [end_condition_eq _ _ _ _ _ _ _ (ne_of_gt hbeta), binom_cdf_quantile, decide_eq_true_iff,
    le_div_iff₀ hbeta]
  have : cdfNat i (p0 + delta) (quantileFrom i p0 (1 - alpha) i 0) - beta ≤ 0 := by linarith
  rw [abs_of_nonpos this]
  linarith

theorem end_condition_binom_false (p0 delta alpha beta : ℚ) (i : Nat) (hbeta : 0 < beta)
    (hlo : beta - beta / 100 < cdfNat i (p0 + delta) (quantileFrom i p0 (1 - alpha) i 0))
    (hhi : cdfNat i (p0 + delta) (quantileFrom i p0 (1 - alpha) i 0) < beta + beta / 100) :
    end_condition binom_cdf binom_quantile p0 delta alpha beta i = false := by
  rw [end_condition_eq _ _ _ _ _ _ _ (ne_of_gt hbeta), binom_cdf_quantile, decide_eq_false_iff_not,
    not_le, div_lt_iff₀ hbeta, abs_lt]
  constructor <;> linarith

theorem checkpoint_sound (a0 c0 a1 c1 u v tu tv n0 n1 k : Nat) (h0 : 0 < a0 + c0)
    (h1 : 0 < a1 + c1) (hv : 0 < v) (htv : 0 < tv)
    (hok : checkpointOk a0 c0 a1 c1 u v tu tv n0 n1 k = true) (n : Nat) (hn0 : n0 ≤ n)
    (hn1 : n ≤ n1) :
    (tu : ℚ) / tv ≤ cdfNat n ((a1 : ℚ) / ((a1 + c1 : Nat) : ℚ))
      (quantileFrom n ((a0 : ℚ) / ((a0 + c0 : Nat) : ℚ)) ((u : ℚ) / v) n 0) := by
  simp only [checkpointOk, Bool.and_eq_true, decide_eq_true_eq] at hok
  obtain ⟨⟨⟨hk, _⟩, hF1⟩, hF2⟩ := hok
  have hp0 : (0 : ℚ) ≤ (a0 : ℚ) / ((a0 + c0 : Nat) : ℚ) := by positivity
  have hp0' : (a0 : ℚ) / ((a0 + c0 : Nat) : ℚ) ≤ 1 := by
    have hpos : (0 : ℚ) < ((a0 + c0 : Nat) : ℚ) := by exact_mod_cast h0
    rw [div_le_one hpos]
    exact_mod_cast Nat.le_add_right a0 c0
  have hp1 : (0 : ℚ) ≤ (a1 : ℚ) / ((a1 + c1 : Nat) : ℚ) := by positivity
  have hp1' : (a1 : ℚ) / ((a1 + c1 : Nat) : ℚ) ≤ 1 := by
    have hpos : (0 : ℚ) < ((a1 + c1 : Nat) : ℚ) := by exact_mod_cast h1
    rw [div_le_one hpos]
    exact_mod_cast Nat.le_add_right a1 c1
  have hlt0 := cdfNat_lt_of n0 a0 c0 k u v h0 hv hF1
  have hltn : cdfNat n ((a0 : ℚ) / ((a0 + c0 : Nat) : ℚ)) k < (u : ℚ) / v :=
    lt_of_le_of_lt (cdfNat_anti _ hp0 hp0' k n0 n hn0) hlt0
  have hq := quantileFrom_ge n _ _ hp0 hp0' k (by omega) hltn
  have hge1 := cdfNat_ge_of n1 a1 c1 (k + 1) tu tv h1 htv hF2
  have hgen := cdfNat_anti _ hp1 hp1' (k + 1) n n1 hn1
  have hmono := cdfNat_mono n _ hp1 hp1' _ _ hq
  linarith

theorem certEnd_sound (a0 c0 a1 c1 u v tu tv : Nat) (h0 : 0 < a0 + c0) (h1 : 0 < a1 + c1)
    (hv : 0 < v) (htv : 0 < tv) (cert : List (Nat × Nat)) :
    ∀ lo hi : Nat, certEnd a0 c0 a1 c1 u v tu tv lo cert = some hi →
      ∀ n, lo ≤ n → n < hi →
        (tu : ℚ) / tv ≤ cdfNat n ((a1 : ℚ) / ((a1 + c1 : Nat) : ℚ))
          (quantileFrom n ((a0 : ℚ) / ((a0 + c0 : Nat) : ℚ)) ((u : ℚ) / v) n 0) := by
  induction cert with
  | nil =>
    intro lo hi h n hn1 hn2
    simp only [certEnd, Option.some.injEq] at h
    omega
  | cons hd tl ih =>
    intro lo hi h n hn1 hn2
    obtain ⟨n1, k⟩ := hd
    by_cases hok : checkpointOk a0 c0 a1 c1 u v tu tv lo n1 k = true
    · simp only [certEnd, hok, if_true] at h
      by_cases hn : n ≤ n1
      · exact checkpoint_sound a0 c0 a1 c1 u v tu tv lo n1 k h0 h1 hv htv hok n hn1 hn
      · exact ih (n1 + 1) hi h n (by omega) hn2
    · simp [certEnd, hok] at h

/-! ## C14: the documented examples with effect sizes 0.03 and 0.01 -/

theorem lowerSum_complement (n a c k : Nat) (hk : k + 1 ≤ n) :
    lowerSum n a c k + lowerSum n c a (n - k - 1) = (a + c) ^ n := by
  rw [lowerSum_eq, lowerSum_eq, add_pow]
  simp only [Nat.cast_id]
  have hn : n + 1 = (k + 1) + (n - k) := by omega
  have hsplit : (Finset.sum (Finset.range (n + 1)) fun m => a ^ m * c ^ (n - m) * n.choose m) =
      (Finset.sum (Finset.range (k + 1)) fun m => a ^ m * c ^ (n - m) * n.choose m) +
        Finset.sum (Finset.range (n - k)) fun i =>
          a ^ (k + 1 + i) * c ^ (n - (k + 1 + i)) * n.choose (k + 1 + i) := by
    rw [hn, Finset.sum_range_add]
  have hnk : n - k - 1 + 1 = n - k := by omega
  rw [hsplit, hnk]
  congr 1
  · apply Finset.sum_congr rfl
    intro i _
    ring
  · rw [← Finset.sum_range_reflect (fun i =>
      a ^ (k + 1 + i) * c ^ (n - (k + 1 + i)) * n.choose (k + 1 + i)) (n - k)]
    apply Finset.sum_congr rfl
    intro i hi
    simp only [Finset.mem_range] at hi
    have e1 : k + 1 + (n - k - 1 - i) = n - i := by omega
    have e2 : n - (n - i) = i := by omega
    have e3 : n.choose (n - i) = n.choose i := Nat.choose_symm (by omega)
    simp only [e1, e2, e3]
    ring

theorem checkpointOk_of_upper (a0 c0 a1 c1 u v tu tv n0 n1 k : Nat)
    (h : checkpointOkUpper a0 c0 a1 c1 u v tu tv n0 n1 k = true) :
    checkpointOk a0 c0 a1 c1 u v tu tv n0 n1 k = true := by
  simp only [checkpointOkUpper, Bool.and_eq_true, decide_eq_true_eq] at h
  obtain ⟨⟨⟨⟨⟨⟨hk, hn⟩, hk2⟩, huv⟩, htuv⟩, hF1⟩, hF2⟩ := h
  have hc0 := lowerSum_complement n0 a0 c0 k hk
  have hc1 := lowerSum_complement n1 a1 c1 (k + 1) hk2
  have e1 : v * lowerSum n0 a0 c0 k + v * lowerSum n0 c0 a0 (n0 - k - 1) =
      v * (a0 + c0) ^ n0 := by
    rw [← Nat.mul_add, hc0]
  have e2 : (v - u) * (a0 + c0) ^ n0 + u * (a0 + c0) ^ n0 = v * (a0 + c0) ^ n0 := by
    rw [← Nat.add_mul, Nat.sub_add_cancel huv]
  have e3 : tv * lowerSum n1 a1 c1 (k + 1) + tv * lowerSum n1 c1 a1 (n1 - (k + 1) - 1) =
      tv * (a1 + c1) ^ n1 := by
    rw [← Nat.mul_add, hc1]
  have e4 : (tv - tu) * (a1 + c1) ^ n1 + tu * (a1 + c1) ^ n1 = tv * (a1 + c1) ^ n1 := by
    rw [← Nat.add_mul, Nat.sub_add_cancel htuv]
  simp only [checkpointOk, Bool.and_eq_true, decide_eq_true_eq]
  refine ⟨⟨⟨hk, hn⟩, ?_⟩, ?_⟩
  · omega
  · omega

theorem certEnd_of_upper (a0 c0 a1 c1 u v tu tv : Nat) (cert : List (Nat × Nat)) :
    ∀ lo hi : Nat, certEndUpper a0 c0 a1 c1 u v tu tv lo cert = some hi →
      certEnd a0 c0 a1 c1 u v tu tv lo cert = some hi := by
  induction cert with
  | nil =>
    intro lo hi h
    simpa [certEndUpper, certEnd] using h
  | cons hd tl ih =>
    intro lo hi h
    obtain ⟨n1, k⟩ := hd
    by_cases hok : checkpointOkUpper a0 c0 a1 c1 u v tu tv lo n1 k = true
    · simp only [certEndUpper, hok, if_true] at h
      simp only [certEnd, checkpointOk_of_upper _ _ _ _ _ _ _ _ _ _ _ hok, if_true]
      exact ih (n1 + 1) hi h
    · simp [certEndUpper, hok] at h

theorem certEnd_append (a0 c0 a1 c1 u v tu tv : Nat) (l1 l2 : List (Nat × Nat)) :
    ∀ lo mid hi : Nat, certEnd a0 c0 a1 c1 u v tu tv lo l1 = some mid →
      certEnd a0 c0 a1 c1 u v tu tv mid l2 = some hi →
      certEnd a0 c0 a1 c1 u v tu tv lo (l1 ++ l2) = some hi := by
  induction l1 with
  | nil =>
    intro lo mid hi h1 h2
    simp only [certEnd, Option.some.injEq] at h1
    subst h1
    exact h2
  | cons hd tl ih =>
    intro lo mid hi h1 h2
    obtain ⟨n1, k⟩ := hd
    by_cases hok : checkpointOk a0 c0 a1 c1 u v tu tv lo n1 k = true
    · simp only [List.cons_append, certEnd, hok, if_true] at h1 ⊢
      exact ih (n1 + 1) mid hi h1 h2
    · simp [certEnd, hok] at h1

theorem certSmallEffect_part0 :
    certEndUpper 3 1 19 6 39 40 101 1000 11 ((certSmallEffect.drop 0).take 6) = some 81 := by
  decide!

theorem certSmallEffect_part1 :
    certEndUpper 3 1 19 6 39 40 101 1000 81 ((certSmallEffect.drop 6).take 6) = some 205 := by
  decide!

theorem certSmallEffect_part2 :
    certEndUpper 3 1 19 6 39 40 101 1000 205 ((certSmallEffect.drop 12).take 6) = some 374 := by
  decide!

theorem certSmallEffect_part3 :
    certEndUpper 3 1 19 6 39 40 101 1000 374 ((certSmallEffect.drop 18).take 6) = some 582 := by
  decide!

theorem certSmallEffect_part4 :
    certEndUpper 3 1 19 6 39 40 101 1000 582 ((certSmallEffect.drop 24).take 6) = some 822 := by
  decide!

theorem certSmallEffect_part5 :
    certEndUpper 3 1 19 6 39 40 101 1000 822 ((certSmallEffect.drop 30).take 6) = some 1093 := by
  decide!

theorem certSmallEffect_part6 :
    certEndUpper 3 1 19 6 39 40 101 1000 1093 ((certSmallEffect.drop 36).take 6) = some 1388 := by
  decide!

theorem certSmallEffect_part7 :
    certEndUpper 3 1 19 6 39 40 101 1000 1388 ((certSmallEffect.drop 42).take 6) = some 1705 := by
  decide!

theorem certSmallEffect_part8 :
    certEndUpper 3 1 19 6 39 40 101 1000 1705 ((certSmallEffect.drop 48).take 6) = some 2040 := by
  decide!

theorem certSmallEffect_part9 :
    certEndUpper 3 1 19 6 39 40 101 1000 2040 (certSmallEffect.drop 54) = some 2154 := by
  decide!

theorem certSmallEffect_end :
    certEnd 3 1 19 6 39 40 101 1000 11 certSmallEffect = some 2154 := by
  have e : certSmallEffect =
      ((certSmallEffect.drop 0).take 6) ++
        (((certSmallEffect.drop 6).take 6) ++
        (((certSmallEffect.drop 12).take 6) ++
        (((certSmallEffect.drop 18).take 6) ++
        (((certSmallEffect.drop 24).take 6) ++
        (((certSmallEffect.drop 30).take 6) ++
        (((certSmallEffect.drop 36).take 6) ++
        (((certSmallEffect.drop 42).take 6) ++
        (((certSmallEffect.drop 48).take 6) ++
        ((certSmallEffect.drop 54)))))))))) := by
    rfl
  rw [e]
  exact certEnd_append 3 1 19 6 39 40 101 1000 _ _ _ _ _
    (certEnd_of_upper _ _ _ _ _ _ _ _ _ _ _ certSmallEffect_part0)
    (certEnd_append 3 1 19 6 39 40 101 1000 _ _ _ _ _
      (certEnd_of_upper _ _ _ _ _ _ _ _ _ _ _ certSmallEffect_part1)
    (certEnd_append 3 1 19 6 39 40 101 1000 _ _ _ _ _
      (certEnd_of_upper _ _ _ _ _ _ _ _ _ _ _ certSmallEffect_part2)
    (certEnd_append 3 1 19 6 39 40 101 1000 _ _ _ _ _
      (certEnd_of_upper _ _ _ _ _ _ _ _ _ _ _ certSmallEffect_part3)
    (certEnd_append 3 1 19 6 39 40 101 1000 _ _ _ _ _
      (certEnd_of_upper _ _ _ _ _ _ _ _ _ _ _ certSmallEffect_part4)
    (certEnd_append 3 1 19 6 39 40 101 1000 _ _ _ _ _
      (certEnd_of_upper _ _ _ _ _ _ _ _ _ _ _ certSmallEffect_part5)
    (certEnd_append 3 1 19 6 39 40 101 1000 _ _ _ _ _
      (certEnd_of_upper _ _ _ _ _ _ _ _ _ _ _ certSmallEffect_part6)
    (certEnd_append 3 1 19 6 39 40 101 1000 _ _ _ _ _
      (certEnd_of_upper _ _ _ _ _ _ _ _ _ _ _ certSmallEffect_part7)
    (certEnd_append 3 1 19 6 39 40 101 1000 _ _ _ _ _
      (certEnd_of_upper _ _ _ _ _ _ _ _ _ _ _ certSmallEffect_part8)
    (certEnd_of_upper _ _ _ _ _ _ _ _ _ _ _ certSmallEffect_part9)))))))))

theorem small_effect_continues (n : Nat) (h11 : 11 ≤ n) (hn : n ≤ 2105) :
    end_condition binom_cdf binom_quantile (3 / 4) (1 / 100)
      (if true = true then (1 / 20 : ℚ) / 2 else 1 / 20) (1 - 9 / 10) n = true := by
  have h := certEnd_sound 3 1 19 6 39 40 101 1000 (by decide) (by decide) (by decide) (by decide)
    certSmallEffect 11 2154 certSmallEffect_end n h11 (by omega)
  apply end_condition_binom_true _ _ _ _ _ (by norm_num)
  have e1 : (3 / 4 : ℚ) + 1 / 100 = ((19 : Nat) : ℚ) / ((19 + 6 : Nat) : ℚ) := by norm_num
  have e2 : (3 / 4 : ℚ) = ((3 : Nat) : ℚ) / ((3 + 1 : Nat) : ℚ) := by norm_num
  have e3 : (1 - (if true = true then (1 / 20 : ℚ) / 2 else 1 / 20)) =
      ((39 : Nat) : ℚ) / ((40 : Nat) : ℚ) := by norm_num
  have e4 : ((1 : ℚ) - 9 / 10) + (1 - 9 / 10) / 100 = ((101 : Nat) : ℚ) / ((1000 : Nat) : ℚ) := by
    norm_num
  rw [e1, e3, e4]
  rw [e2]
  exact h

theorem large_effect_quantile :
    quantileFrom 2105 (((3 : Nat) : ℚ) / ((3 + 1 : Nat) : ℚ)) (((39 : Nat) : ℚ) / ((40 : Nat) : ℚ))
      2105 0 = 1616 + 1 := by
  have hp0 : (0 : ℚ) ≤ ((3 : Nat) : ℚ) / ((3 + 1 : Nat) : ℚ) := by norm_num
  have hp1 : ((3 : Nat) : ℚ) / ((3 + 1 : Nat) : ℚ) ≤ 1 := by norm_num
  apply quantileFrom_eq 2105 _ _ hp0 hp1 1616 (by decide)
  · exact cdfNat_lt_of 2105 3 1 1616 39 40 (by decide) (by decide) (by decide!)
  · exact cdfNat_ge_of 2105 3 1 (1616 + 1) 39 40 (by decide) (by decide) (by decide!)

theorem large_effect_stops :
    end_condition binom_cdf binom_quantile (3 / 4) (3 / 100)
      (if true = true then (1 / 20 : ℚ) / 2 else 1 / 20) (1 - 9 / 10) 2105 = false := by
  have e1 : (3 / 4 : ℚ) + 3 / 100 = ((39 : Nat) : ℚ) / ((39 + 11 : Nat) : ℚ) := by norm_num
  have e2 : (3 / 4 : ℚ) = ((3 : Nat) : ℚ) / ((3 + 1 : Nat) : ℚ) := by norm_num
  have e3 : (1 - (if true = true then (1 / 20 : ℚ) / 2 else 1 / 20)) =
      ((39 : Nat) : ℚ) / ((40 : Nat) : ℚ) := by norm_num
  have e4 : ((1 : ℚ) - 9 / 10) + (1 - 9 / 10) / 100 = ((101 : Nat) : ℚ) / ((1000 : Nat) : ℚ) := by
    norm_num
  have e5 : ((1 : ℚ) - 9 / 10) - (1 - 9 / 10) / 100 = ((99 : Nat) : ℚ) / ((1000 : Nat) : ℚ) := by
    norm_num
  apply end_condition_binom_false _ _ _ _ _ (by norm_num)
  · rw [e1, e3, e5]
    rw [e2, large_effect_quantile]
    exact cdfNat_gt_of 2105 39 11 (1616 + 1) 99 1000 (by decide) (by decide) (by decide!)
  · rw [e1, e3, e4]
    rw [e2, large_effect_quantile]
    exact cdfNat_lt_of 2105 39 11 (1616 + 1) 101 1000 (by decide) (by decide) (by decide!)

theorem exact_binom_example_bounds :
    ∃ a b, exact_binom binom_cdf binom_quantile (3 / 4) (3 / 100) (1 / 20) (9 / 10) true = some a ∧
      exact_binom binom_cdf binom_quantile (3 / 4) (1 / 100) (1 / 20) (9 / 10) true = some b ∧
      a ≤ 2105 ∧ 2105 < b := by
  obtain ⟨a, ha, ha1, _, ha3, _⟩ := exact_binom_loop_spec
    (end_condition binom_cdf binom_quantile (3 / 4) (3 / 100)
      (if true = true then (1 / 20 : ℚ) / 2 else 1 / 20) (1 - 9 / 10))
    (INT_MAX - 10) 10 (by decide) (by decide)
  obtain ⟨b, hb, hb1, _, _, hb4⟩ := exact_binom_loop_spec
    (end_condition binom_cdf binom_quantile (3 / 4) (1 / 100)
      (if true = true then (1 / 20 : ℚ) / 2 else 1 / 20) (1 - 9 / 10))
    (INT_MAX - 10) 10 (by decide) (by decide)
  refine ⟨a, b, ha, hb, ?_, ?_⟩
  · by_contra hcon
    have h := ha3 2105 (by omega) (by omega)
    rw [large_effect_stops] at h
    cases h
  · by_contra hcon
    have hlt : b < INT_MAX := by
      have : (2105 : Nat) < INT_MAX := by decide
      omega
    have h := hb4 hlt
    rw [small_effect_continues b (by omega) (by omega)] at h
    cases h

/-- C14 as stated fails: with the exact binomial cdf and quantile the search
for effect size 0.03 returns a sample size that is not greater than or equal to
the one for effect size 0.01. -/
theorem exact_binom_larger_effect_not_ge :
    ∃ a b, exact_binom binom_cdf binom_quantile (3 / 4) (3 / 100) (1 / 20) (9 / 10) true = some a ∧
      exact_binom binom_cdf binom_quantile (3 / 4) (1 / 100) (1 / 20) (9 / 10) true = some b ∧
      ¬ (b ≤ a) := by
  obtain ⟨a, b, ha, hb, h1, h2⟩ := exact_binom_example_bounds
  exact ⟨a, b, ha, hb, by omega⟩

/-- C14 (amended): with the exact binomial cdf and quantile,
`exact_binom(0.75, 0.03, alpha = 0.05, power = 0.9, two_tail = true)` returns a
sample size of at most 2105 and `exact_binom(0.75, 0.01, ...)` one greater than
2105, so the larger effect size needs the smaller sample. -/
theorem exact_binom_larger_effect_smaller_sample :
    ∃ a b, exact_binom binom_cdf binom_quantile (3 / 4) (3 / 100) (1 / 20) (9 / 10) true = some a ∧
      exact_binom binom_cdf binom_quantile (3 / 4) (1 / 100) (1 / 20) (9 / 10) true = some b ∧
      a ≤ 2105 ∧ 2105 < b ∧ a < b := by
  obtain ⟨a, b, ha, hb, h1, h2⟩ := exact_binom_example_bounds
  exact ⟨a, b, ha, hb, h1, h2, by omega⟩

/-! ## C15: one-tailed and two-tailed searches -/

theorem quantileFrom_mono_prob (n : Nat) (p prob prob' : ℚ) (h : prob ≤ prob') :
    quantileFrom n p prob n 0 ≤ quantileFrom n p prob' n 0 := by
  obtain ⟨_, h2, h3, _⟩ := quantileFrom_spec n p prob n 0
  obtain ⟨_, h2', _, h4'⟩ := quantileFrom_spec n p prob' n 0
  by_contra hcon
  have hlt : quantileFrom n p prob' n 0 < quantileFrom n p prob n 0 := by omega
  have ha := h3 _ (Nat.zero_le _) hlt
  have hb := h4' (by omega)
  linarith

theorem one_tail_quantile_11 :
    quantileFrom 11 (((1 : Nat) : ℚ) / ((1 + 1 : Nat) : ℚ)) (((19 : Nat) : ℚ) / ((20 : Nat) : ℚ))
      11 0 = 7 + 1 := by
  have hp0 : (0 : ℚ) ≤ ((1 : Nat) : ℚ) / ((1 + 1 : Nat) : ℚ) := by norm_num
  have hp1 : ((1 : Nat) : ℚ) / ((1 + 1 : Nat) : ℚ) ≤ 1 := by norm_num
  apply quantileFrom_eq 11 _ _ hp0 hp1 7 (by decide)
  · exact cdfNat_lt_of 11 1 1 7 19 20 (by decide) (by decide) (by decide)
  · exact cdfNat_ge_of 11 1 1 (7 + 1) 19 20 (by decide) (by decide) (by decide)

theorem two_tail_quantile_11 :
    quantileFrom 11 (((1 : Nat) : ℚ) / ((1 + 1 : Nat) : ℚ)) (((39 : Nat) : ℚ) / ((40 : Nat) : ℚ))
      11 0 = 8 + 1 := by
  have hp0 : (0 : ℚ) ≤ ((1 : Nat) : ℚ) / ((1 + 1 : Nat) : ℚ) := by norm_num
  have hp1 : ((1 : Nat) : ℚ) / ((1 + 1 : Nat) : ℚ) ≤ 1 := by norm_num
  apply quantileFrom_eq 11 _ _ hp0 hp1 8 (by decide)
  · exact cdfNat_lt_of 11 1 1 8 39 40 (by decide) (by decide) (by decide)
  · exact cdfNat_ge_of 11 1 1 (8 + 1) 39 40 (by decide) (by decide) (by decide)

theorem two_tail_stops_11 :
    end_condition binom_cdf binom_quantile (1 / 2) (2 / 5)
      (if true = true then (1 / 20 : ℚ) / 2 else 1 / 20) (1 - 7 / 10) (10 + 1) = false := by
  have e1 : (1 / 2 : ℚ) + 2 / 5 = ((9 : Nat) : ℚ) / ((9 + 1 : Nat) : ℚ) := by norm_num
  have e2 : (1 / 2 : ℚ) = ((1 : Nat) : ℚ) / ((1 + 1 : Nat) : ℚ) := by norm_num
  have e3 : (1 - (if true = true then (1 / 20 : ℚ) / 2 else 1 / 20)) =
      ((39 : Nat) : ℚ) / ((40 : Nat) : ℚ) := by norm_num
  have e4 : ((1 : ℚ) - 7 / 10) + (1 - 7 / 10) / 100 = ((303 : Nat) : ℚ) / ((1000 : Nat) : ℚ) := by
    norm_num
  have e5 : ((1 : ℚ) - 7 / 10) - (1 - 7 / 10) / 100 = ((297 : Nat) : ℚ) / ((1000 : Nat) : ℚ) := by
    norm_num
  apply end_condition_binom_false _ _ _ _ _ (by norm_num)
  · rw [e1, e3, e5]
    rw [e2, two_tail_quantile_11]
    exact cdfNat_gt_of 11 9 1 (8 + 1) 297 1000 (by decide) (by decide) (by decide)
  · rw [e1, e3, e4]
    rw [e2, two_tail_quantile_11]
    exact cdfNat_lt_of 11 9 1 (8 + 1) 303 1000 (by decide) (by decide) (by decide)

theorem one_tail_continues_11 :
    end_condition binom_cdf binom_quantile (1 / 2) (2 / 5)
      (if false = true then (1 / 20 : ℚ) / 2 else 1 / 20) (1 - 7 / 10) 11 = true := by
  have e1 : (1 / 2 : ℚ) + 2 / 5 = ((9 : Nat) : ℚ) / ((9 + 1 : Nat) : ℚ) := by norm_num
  have e2 : (1 / 2 : ℚ) = ((1 : Nat) : ℚ) / ((1 + 1 : Nat) : ℚ) := by norm_num
  have e3 : (1 - (if false = true then (1 / 20 : ℚ) / 2 else 1 / 20)) =
      ((19 : Nat) : ℚ) / ((20 : Nat) : ℚ) := by norm_num
  have e5 : ((1 : ℚ) - 7 / 10) - (1 - 7 / 10) / 100 = ((297 : Nat) : ℚ) / ((1000 : Nat) : ℚ) := by
    norm_num
  apply end_condition_binom_true_low _ _ _ _ _ (by norm_num)
  rw [e1, e3, e5]
  rw [e2, one_tail_quantile_11]
  exact le_of_lt (cdfNat_lt_of 11 9 1 (7 + 1) 297 1000 (by decide) (by decide) (by decide))

/-- C15 as stated fails: for `constant_prop = 0.5`, `effect_size = 0.4`,
`alpha = 0.05` and `power = 0.7` the two-tailed search returns 11 and the
one-tailed search returns a larger sample size. -/
theorem exact_binom_one_tail_larger :
    exact_binom binom_cdf binom_quantile (1 / 2) (2 / 5) (1 / 20) (7 / 10) true = some 11 ∧
      ∃ n, exact_binom binom_cdf binom_quantile (1 / 2) (2 / 5) (1 / 20) (7 / 10) false = some n ∧
        11 < n := by
  constructor
  · have hne : ¬ (10 + 1 = INT_MAX) := by decide
    show exact_binom_loop _ (2147483636 + 1) 10 = some 11
    rw [exact_binom_loop, if_neg hne, two_tail_stops_11]
    rfl
  · obtain ⟨n, hn, h1, _, _, h4⟩ := exact_binom_loop_spec
      (end_condition binom_cdf binom_quantile (1 / 2) (2 / 5)
        (if false = true then (1 / 20 : ℚ) / 2 else 1 / 20) (1 - 7 / 10))
      (INT_MAX - 10) 10 (by decide) (by decide)
    refine ⟨n, hn, ?_⟩
    by_contra hcon
    have h11 : n = 11 := by omega
    have hlt : n < INT_MAX := by
      rw [h11]; decide
    have h := h4 hlt
    rw [h11, one_tail_continues_11] at h
    cases h

/-- The type II errors at equal sample size: for a null proportion
`constant_prop`, an alternative `constant_prop + effect_size` between 0 and 1,
`alpha ≥ 0` and every sample size `n`, the type II error that the one-tailed
search computes at `n` is at most the one the two-tailed search computes at `n`. -/
theorem exact_binom_one_tail_error_le (constant_prop effect_size alpha : ℚ) (n : Nat)
    (hp0 : 0 ≤ constant_prop + effect_size) (hp1 : constant_prop + effect_size ≤ 1)
    (halpha : 0 ≤ alpha) :
    binom_cdf n (constant_prop + effect_size) (binom_quantile n constant_prop (1 - alpha)) ≤
      binom_cdf n (constant_prop + effect_size)
        (binom_quantile n constant_prop (1 - alpha / 2)) := by
  rw [binom_cdf_quantile, binom_cdf_quantile]
  apply cdfNat_mono n _ hp0 hp1
  apply quantileFrom_mono_prob
  linarith

/-- The type II errors at the parameters 0.5, 0.4, 0.05 and sample size 11. -/
theorem exact_binom_one_tail_error_le_witness :
    binom_cdf 11 (1 / 2 + 2 / 5) (binom_quantile 11 (1 / 2) (1 - 1 / 20)) ≤
      binom_cdf 11 (1 / 2 + 2 / 5) (binom_quantile 11 (1 / 2) (1 - 1 / 20 / 2)) :=
  exact_binom_one_tail_error_le (1 / 2) (2 / 5) (1 / 20) 11 (by norm_num) (by norm_num)
    (by norm_num)

/-! ## The undefined deviation with the exact binomial functions -/

theorem sure_alternative_quantile_11 :
    quantileFrom 11 (((3 : Nat) : ℚ) / ((3 + 1 : Nat) : ℚ)) (((19 : Nat) : ℚ) / ((20 : Nat) : ℚ))
      11 0 = 9 + 1 := by
  have hp0 : (0 : ℚ) ≤ ((3 : Nat) : ℚ) / ((3 + 1 : Nat) : ℚ) := by norm_num
  have hp1 : ((3 : Nat) : ℚ) / ((3 + 1 : Nat) : ℚ) ≤ 1 := by norm_num
  apply quantileFrom_eq 11 _ _ hp0 hp1 9 (by decide)
  · exact cdfNat_lt_of 11 3 1 9 19 20 (by decide) (by decide) (by decide)
  · exact cdfNat_ge_of 11 3 1 (9 + 1) 19 20 (by decide) (by decide) (by decide)

theorem exact_binom_nan_stops_binomial :
    exact_binom binom_cdf binom_quantile (3 / 4) (1 / 4) (1 / 20) 1 false = some 11 ∧
      deviation_below binom_cdf binom_quantile (3 / 4) (1 / 4) (1 / 20) (1 - 1) 11 = false := by
  have e1 : (3 / 4 : ℚ) + 1 / 4 = ((1 : Nat) : ℚ) / ((1 + 0 : Nat) : ℚ) := by norm_num
  have e2 : (3 / 4 : ℚ) = ((3 : Nat) : ℚ) / ((3 + 1 : Nat) : ℚ) := by norm_num
  have e3 : (1 - (1 / 20 : ℚ)) = ((19 : Nat) : ℚ) / ((20 : Nat) : ℚ) := by norm_num
  have hcdf : binom_cdf 11 (3 / 4 + 1 / 4) (binom_quantile 11 (3 / 4) (1 - 1 / 20)) = 0 := by
    rw [binom_cdf_quantile, e1, e3, e2, sure_alternative_quantile_11,
      cdfNat_scaled 11 1 0 (9 + 1) (by decide)]
    have h0 : lowerSum 11 1 0 (9 + 1) = 0 := by decide
    rw [h0]
    simp
  constructor
  · have hc : end_condition binom_cdf binom_quantile (3 / 4) (1 / 4)
        (if false = true then (1 / 20 : ℚ) / 2 else 1 / 20) (1 - 1) (10 + 1) = false := by
      have e : (if false = true then (1 / 20 : ℚ) / 2 else 1 / 20) = 1 / 20 := by simp
      rw [e]
      show end_condition binom_cdf binom_quantile (3 / 4) (1 / 4) (1 / 20) (1 - 1) 11 = false
      simp only [end_condition, hcdf]
      simp [Dbl.div, Dbl.ge]
    have hne : ¬ (10 + 1 = INT_MAX) := by decide
    show exact_binom_loop _ (2147483636 + 1) 10 = some 11
    rw [exact_binom_loop, if_neg hne, hc]
    rfl
  · simp only [deviation_below, hcdf]
    simp [Dbl.div, Dbl.lt]

/-! ## C15: the documented one-tailed and two-tailed calls -/

theorem certDocumentedTwoTail_part0 :
    certEndUpper 3 1 39 11 39 40 101 1000 11 ((certDocumentedTwoTail.drop 0).take 6) = some 71 := by
  decide!

theorem certDocumentedTwoTail_part1 :
    certEndUpper 3 1 39 11 39 40 101 1000 71 ((certDocumentedTwoTail.drop 6).take 6) = some 162 := by
  decide!

theorem certDocumentedTwoTail_part2 :
    certEndUpper 3 1 39 11 39 40 101 1000 162 ((certDocumentedTwoTail.drop 12).take 6) = some 274 := by
  decide!

theorem certDocumentedTwoTail_part3 :
    certEndUpper 3 1 39 11 39 40 101 1000 274 ((certDocumentedTwoTail.drop 18).take 6) = some 397 := by
  decide!

theorem certDocumentedTwoTail_part4 :
    certEndUpper 3 1 39 11 39 40 101 1000 397 ((certDocumentedTwoTail.drop 24).take 6) = some 527 := by
  decide!

theorem certDocumentedTwoTail_part5 :
    certEndUpper 3 1 39 11 39 40 101 1000 527 ((certDocumentedTwoTail.drop 30).take 6) = some 656 := by
  decide!

theorem certDocumentedTwoTail_part6 :
    certEndUpper 3 1 39 11 39 40 101 1000 656 ((certDocumentedTwoTail.drop 36).take 6) = some 782 := by
  decide!

theorem certDocumentedTwoTail_part7 :
    certEndUpper 3 1 39 11 39 40 101 1000 782 ((certDocumentedTwoTail.drop 42).take 6) = some 902 := by
  decide!

theorem certDocumentedTwoTail_part8 :
    certEndUpper 3 1 39 11 39 40 101 1000 902 ((certDocumentedTwoTail.drop 48).take 6) = some 1016 := by
  decide!

theorem certDocumentedTwoTail_part9 :
    certEndUpper 3 1 39 11 39 40 101 1000 1016 ((certDocumentedTwoTail.drop 54).take 6) = some 1124 := by
  decide!

theorem certDocumentedTwoTail_part10 :
    certEndUpper 3 1 39 11 39 40 101 1000 1124 ((certDocumentedTwoTail.drop 60).take 6) = some 1222 := by
  decide!

theorem certDocumentedTwoTail_part11 :
    certEndUpper 3 1 39 11 39 40 101 1000 1222 ((certDocumentedTwoTail.drop 66).take 6) = some 1314 := by
  decide!

theorem certDocumentedTwoTail_part12 :
    certEndUpper 3 1 39 11 39 40 101 1000 1314 ((certDocumentedTwoTail.drop 72).take 6) = some 1397 := by
  decide!

theorem certDocumentedTwoTail_part13 :
    certEndUpper 3 1 39 11 39 40 101 1000 1397 ((certDocumentedTwoTail.drop 78).take 6) = some 1475 := by
  decide!

theorem certDocumentedTwoTail_part14 :
    certEndUpper 3 1 39 11 39 40 101 1000 1475 ((certDocumentedTwoTail.drop 84).take 6) = some 1545 := by
  decide!

theorem certDocumentedTwoTail_part15 :
    certEndUpper 3 1 39 11 39 40 101 1000 1545 ((certDocumentedTwoTail.drop 90).take 6) = some 1608 := by
  decide!

theorem certDocumentedTwoTail_part16 :
    certEndUpper 3 1 39 11 39 40 101 1000 1608 ((certDocumentedTwoTail.drop 96).take 6) = some 1663 := by
  decide!

theorem certDocumentedTwoTail_part17 :
    certEndUpper 3 1 39 11 39 40 101 1000 1663 (certDocumentedTwoTail.drop 102) = some 1718 := by
  decide!

theorem certDocumentedTwoTail_end :
    certEnd 3 1 39 11 39 40 101 1000 11 certDocumentedTwoTail = some 1718 := by
  have e : certDocumentedTwoTail =
      ((certDocumentedTwoTail.drop 0).take 6) ++
        (((certDocumentedTwoTail.drop 6).take 6) ++
        (((certDocumentedTwoTail.drop 12).take 6) ++
        (((certDocumentedTwoTail.drop 18).take 6) ++
        (((certDocumentedTwoTail.drop 24).take 6) ++
        (((certDocumentedTwoTail.drop 30).take 6) ++
        (((certDocumentedTwoTail.drop 36).take 6) ++
        (((certDocumentedTwoTail.drop 42).take 6) ++
        (((certDocumentedTwoTail.drop 48).take 6) ++
        (((certDocumentedTwoTail.drop 54).take 6) ++
        (((certDocumentedTwoTail.drop 60).take 6) ++
        (((certDocumentedTwoTail.drop 66).take 6) ++
        (((certDocumentedTwoTail.drop 72).take 6) ++
        (((certDocumentedTwoTail.drop 78).take 6) ++
        (((certDocumentedTwoTail.drop 84).take 6) ++
        (((certDocumentedTwoTail.drop 90).take 6) ++
        (((certDocumentedTwoTail.drop 96).take 6) ++
        ((certDocumentedTwoTail.drop 102)))))))))))))))))) := by
    rfl
  rw [e]
  exact certEnd_append 3 1 39 11 39 40 101 1000 _ _ _ _ _
    (certEnd_of_upper _ _ _ _ _ _ _ _ _ _ _ certDocumentedTwoTail_part0)
    (certEnd_append 3 1 39 11 39 40 101 1000 _ _ _ _ _
      (certEnd_of_upper _ _ _ _ _ _ _ _ _ _ _ certDocumentedTwoTail_part1)
    (certEnd_append 3 1 39 11 39 40 101 1000 _ _ _ _ _
      (certEnd_of_upper _ _ _ _ _ _ _ _ _ _ _ certDocumentedTwoTail_part2)
    (certEnd_append 3 1 39 11 39 40 101 1000 _ _ _ _ _
      (certEnd_of_upper _ _ _ _ _ _ _ _ _ _ _ certDocumentedTwoTail_part3)
    (certEnd_append 3 1 39 11 39 40 101 1000 _ _ _ _ _
      (certEnd_of_upper _ _ _ _ _ _ _ _ _ _ _ certDocumentedTwoTail_part4)
    (certEnd_append 3 1 39 11 39 40 101 1000 _ _ _ _ _
      (certEnd_of_upper _ _ _ _ _ _ _ _ _ _ _ certDocumentedTwoTail_part5)
    (certEnd_append 3 1 39 11 39 40 101 1000 _ _ _ _ _
      (certEnd_of_upper _ _ _ _ _ _ _ _ _ _ _ certDocumentedTwoTail_part6)
    (certEnd_append 3 1 39 11 39 40 101 1000 _ _ _ _ _
      (certEnd_of_upper _ _ _ _ _ _ _ _ _ _ _ certDocumentedTwoTail_part7)
    (certEnd_append 3 1 39 11 39 40 101 1000 _ _ _ _ _
      (certEnd_of_upper _ _ _ _ _ _ _ _ _ _ _ certDocumentedTwoTail_part8)
    (certEnd_append 3 1 39 11 39 40 101 1000 _ _ _ _ _
      (certEnd_of_upper _ _ _ _ _ _ _ _ _ _ _ certDocumentedTwoTail_part9)
    (certEnd_append 3 1 39 11 39 40 101 1000 _ _ _ _ _
      (certEnd_of_upper _ _ _ _ _ _ _ _ _ _ _ certDocumentedTwoTail_part10)
    (certEnd_append 3 1 39 11 39 40 101 1000 _ _ _ _ _
      (certEnd_of_upper _ _ _ _ _ _ _ _ _ _ _ certDocumentedTwoTail_part11)
    (certEnd_append 3 1 39 11 39 40 101 1000 _ _ _ _ _
      (certEnd_of_upper _ _ _ _ _ _ _ _ _ _ _ certDocumentedTwoTail_part12)
    (certEnd_append 3 1 39 11 39 40 101 1000 _ _ _ _ _
      (certEnd_of_upper _ _ _ _ _ _ _ _ _ _ _ certDocumentedTwoTail_part13)
    (certEnd_append 3 1 39 11 39 40 101 1000 _ _ _ _ _
      (certEnd_of_upper _ _ _ _ _ _ _ _ _ _ _ certDocumentedTwoTail_part14)
    (certEnd_append 3 1 39 11 39 40 101 1000 _ _ _ _ _
      (certEnd_of_upper _ _ _ _ _ _ _ _ _ _ _ certDocumentedTwoTail_part15)
    (certEnd_append 3 1 39 11 39 40 101 1000 _ _ _ _ _
      (certEnd_of_upper _ _ _ _ _ _ _ _ _ _ _ certDocumentedTwoTail_part16)
    (certEnd_of_upper _ _ _ _ _ _ _ _ _ _ _ certDocumentedTwoTail_part17)))))))))))))))))

theorem documented_two_tail_continues (n : Nat) (h11 : 11 ≤ n) (hn : n ≤ 1716) :
    end_condition binom_cdf binom_quantile (3 / 4) (3 / 100)
      (if true = true then (1 / 20 : ℚ) / 2 else 1 / 20) (1 - 9 / 10) n = true := by
  have h := certEnd_sound 3 1 39 11 39 40 101 1000 (by decide) (by decide) (by decide) (by decide)
    certDocumentedTwoTail 11 1718 certDocumentedTwoTail_end n h11 (by omega)
  apply end_condition_binom_true _ _ _ _ _ (by norm_num)
  have e1 : (3 / 4 : ℚ) + 3 / 100 = ((39 : Nat) : ℚ) / ((39 + 11 : Nat) : ℚ) := by norm_num
  have e2 : (3 / 4 : ℚ) = ((3 : Nat) : ℚ) / ((3 + 1 : Nat) : ℚ) := by norm_num
  have e3 : (1 - (if true = true then (1 / 20 : ℚ) / 2 else 1 / 20)) =
      ((39 : Nat) : ℚ) / ((40 : Nat) : ℚ) := by norm_num
  have e4 : ((1 : ℚ) - 9 / 10) + (1 - 9 / 10) / 100 = ((101 : Nat) : ℚ) / ((1000 : Nat) : ℚ) := by
    norm_num
  rw [e1, e3, e4]
  rw [e2]
  exact h

theorem documented_one_tail_quantile :
    quantileFrom 1716 (((3 : Nat) : ℚ) / ((3 + 1 : Nat) : ℚ))
      (((19 : Nat) : ℚ) / ((20 : Nat) : ℚ)) 1716 0 = 1315 + 1 := by
  have hp0 : (0 : ℚ) ≤ ((3 : Nat) : ℚ) / ((3 + 1 : Nat) : ℚ) := by norm_num
  have hp1 : ((3 : Nat) : ℚ) / ((3 + 1 : Nat) : ℚ) ≤ 1 := by norm_num
  apply quantileFrom_eq 1716 _ _ hp0 hp1 1315 (by decide)
  · exact cdfNat_lt_of 1716 3 1 1315 19 20 (by decide) (by decide) (by decide!)
  · exact cdfNat_ge_of 1716 3 1 (1315 + 1) 19 20 (by decide) (by decide) (by decide!)

theorem documented_one_tail_stops :
    end_condition binom_cdf binom_quantile (3 / 4) (3 / 100)
      (if false = true then (1 / 20 : ℚ) / 2 else 1 / 20) (1 - 9 / 10) 1716 = false := by
  have e1 : (3 / 4 : ℚ) + 3 / 100 = ((39 : Nat) : ℚ) / ((39 + 11 : Nat) : ℚ) := by norm_num
  have e2 : (3 / 4 : ℚ) = ((3 : Nat) : ℚ) / ((3 + 1 : Nat) : ℚ) := by norm_num
  have e3 : (1 - (if false = true then (1 / 20 : ℚ) / 2 else 1 / 20)) =
      ((19 : Nat) : ℚ) / ((20 : Nat) : ℚ) := by norm_num
  have e4 : ((1 : ℚ) - 9 / 10) + (1 - 9 / 10) / 100 = ((101 : Nat) : ℚ) / ((1000 : Nat) : ℚ) := by
    norm_num
  have e5 : ((1 : ℚ) - 9 / 10) - (1 - 9 / 10) / 100 = ((99 : Nat) : ℚ) / ((1000 : Nat) : ℚ) := by
    norm_num
  apply end_condition_binom_false _ _ _ _ _ (by norm_num)
  · rw [e1, e3, e5]
    rw [e2, documented_one_tail_quantile]
    exact cdfNat_gt_of 1716 39 11 (1315 + 1) 99 1000 (by decide) (by decide) (by decide!)
  · rw [e1, e3, e4]
    rw [e2, documented_one_tail_quantile]
    exact cdfNat_lt_of 1716 39 11 (1315 + 1) 101 1000 (by decide) (by decide) (by decide!)

/-- C15 (amended): for the documented call `constant_prop = 0.75`,
`effect_size = 0.03`, `alpha = 0.05`, `power = 0.9`, with the exact binomial cdf
and quantile, `exact_binom` with `two_tail = false` returns a sample size of at
most 1716 and with `two_tail = true` one greater than 1716, so the one-tailed
value is less than or equal to the two-tailed value. -/
theorem exact_binom_documented_one_tail_le :
    ∃ a b,
      exact_binom binom_cdf binom_quantile (3 / 4) (3 / 100) (1 / 20) (9 / 10) false = some a ∧
      exact_binom binom_cdf binom_quantile (3 / 4) (3 / 100) (1 / 20) (9 / 10) true = some b ∧
      a ≤ 1716 ∧ 1716 < b ∧ a ≤ b := by
  obtain ⟨a, ha, ha1, _, ha3, _⟩ := exact_binom_loop_spec
    (end_condition binom_cdf binom_quantile (3 / 4) (3 / 100)
      (if false = true then (1 / 20 : ℚ) / 2 else 1 / 20) (1 - 9 / 10))
    (INT_MAX - 10) 10 (by decide) (by decide)
  obtain ⟨b, hb, hb1, _, _, hb4⟩ := exact_binom_loop_spec
    (end_condition binom_cdf binom_quantile (3 / 4) (3 / 100)
      (if true = true then (1 / 20 : ℚ) / 2 else 1 / 20) (1 - 9 / 10))
    (INT_MAX - 10) 10 (by decide) (by decide)
  have hale : a ≤ 1716 := by
    by_contra hcon
    have h := ha3 1716 (by omega) (by omega)
    rw [documented_one_tail_stops] at h
    cases h
  have hblt : 1716 < b := by
    by_contra hcon
    have hlt : b < INT_MAX := by
      have : (1716 : Nat) < INT_MAX := by decide
      omega
    have h := hb4 hlt
    rw [documented_two_tail_continues b (by omega) (by omega)] at h
    cases h
  exact ⟨a, b, ha, hb, hale, hblt, by omega⟩

/-! ## C5: the label exchange in double arithmetic -/

theorem roundHalfEven_eq (x : ℚ) (m : ℤ) (h1 : (m : ℚ) - 1 / 2 < x) (h2 : x < (m : ℚ) + 1 / 2) :
    roundHalfEven x = m := by
  unfold roundHalfEven
  by_cases hx : (m : ℚ) ≤ x
  · have hf : ⌊x⌋ = m := by
      rw [Int.floor_eq_iff]
      constructor
      · exact hx
      · linarith
    rw [hf]
    have : x - (m : ℚ) < 1 / 2 := by linarith
    rw [if_pos this]
  · have hx' : x < (m : ℚ) := not_le.mp hx
    have hf : ⌊x⌋ = m - 1 := by
      rw [Int.floor_eq_iff]
      push_cast
      constructor <;> linarith
    rw [hf]
    push_cast
    have h3 : ¬ (x - ((m : ℚ) - 1) < 1 / 2) := by linarith
    have h4 : 1 / 2 < x - ((m : ℚ) - 1) := by linarith
    rw [if_neg h3, if_pos h4]
    ring

theorem roundDouble_eq (q : ℚ) (e m : ℤ) (hq : q ≠ 0) (hlo : (2 : ℚ) ^ e ≤ |q|)
    (hhi : |q| < (2 : ℚ) ^ (e + 1)) (h1 : (m : ℚ) - 1 / 2 < q / 2 ^ (e - 52))
    (h2 : q / 2 ^ (e - 52) < (m : ℚ) + 1 / 2) : roundDouble q = (m : ℚ) * 2 ^ (e - 52) := by
  have habs : 0 < |q| := abs_pos.mpr hq
  have hlog : Int.log 2 |q| = e := by
    have ha : e ≤ Int.log 2 |q| := by
      rw [← Int.zpow_le_iff_le_log (by norm_num) habs]
      exact_mod_cast hlo
    have hb : Int.log 2 |q| < e + 1 := by
      rw [← Int.lt_zpow_iff_log_lt (by norm_num) habs]
      exact_mod_cast hhi
    omega
  unfold roundDouble
  rw [if_neg hq, hlog, roundHalfEven_eq _ m h1 h2]

theorem preferenceDouble_one_two :
    ({ winsA := 1, winsB := 2, ties := 0 } : Tally).preferenceDouble =
      Dbl.fin (-3002399751580331 / 18014398509481984) := by
  have hq : Dbl.div (((1 : Int) : ℚ) + ((0 : Int) : ℚ) / 2) (((1 + 2 + 0 : Int) : Int) : ℚ) =
      Dbl.fin (1 / 3) := by
    norm_num [Dbl.div]
  have r1 : roundDouble (1 / 3) = 6004799503160661 / 18014398509481984 := by
    rw [roundDouble_eq (1 / 3) (-2) 6004799503160661 (by norm_num) (by norm_num [abs_of_pos])
      (by norm_num [abs_of_pos]) (by norm_num) (by norm_num)]
    norm_num
  have r2 : roundDouble (6004799503160661 / 18014398509481984 - 1 / 2) =
      -3002399751580331 / 18014398509481984 := by
    rw [roundDouble_eq _ (-3) (-6004799503160662) (by norm_num) (by norm_num [abs_of_neg])
      (by norm_num [abs_of_neg]) (by norm_num) (by norm_num)]
    norm_num
  simp only [Tally.preferenceDouble]
  rw [hq]
  simp only [Dbl.round, Dbl.sub, r1, r2]

theorem preferenceDouble_two_one :
    ({ winsA := 2, winsB := 1, ties := 0 } : Tally).preferenceDouble =
      Dbl.fin (1501199875790165 / 9007199254740992) := by
  have hq : Dbl.div (((2 : Int) : ℚ) + ((0 : Int) : ℚ) / 2) (((2 + 1 + 0 : Int) : Int) : ℚ) =
      Dbl.fin (2 / 3) := by
    norm_num [Dbl.div]
  have r1 : roundDouble (2 / 3) = 6004799503160661 / 9007199254740992 := by
    rw [roundDouble_eq (2 / 3) (-1) 6004799503160661 (by norm_num) (by norm_num [abs_of_pos])
      (by norm_num [abs_of_pos]) (by norm_num) (by norm_num)]
    norm_num
  have r2 : roundDouble (6004799503160661 / 9007199254740992 - 1 / 2) =
      1501199875790165 / 9007199254740992 := by
    rw [roundDouble_eq _ (-3) 6004799503160660 (by norm_num) (by norm_num [abs_of_pos])
      (by norm_num [abs_of_pos]) (by norm_num) (by norm_num)]
    norm_num
  simp only [Tally.preferenceDouble]
  rw [hq]
  simp only [Dbl.round, Dbl.sub, r1, r2]

/-- C5 as stated fails in the double arithmetic of the source: on sessions
`s1 s2 s3 s4` with clicks `A B B A` the result is `-0x1.5555555555556p-3`, and
with the labels exchanged it is `0x1.5555555555554p-3`, which is not its
negation. -/
theorem interleaved_preference_double_swap_not_negated :
    (∀ c ∈ (["A", "B", "B", "A"] : List String), c = "A" ∨ c = "B") ∧
      interleaved_map ["s1", "s2", "s3", "s4"] ["A", "B", "B", "A"] =
        some [("s1", 1), ("s2", -1), ("s3", -1)] ∧
      interleaved_preference_double ["s1", "s2", "s3", "s4"] ["A", "B", "B", "A"] =
        some (Dbl.fin (-3002399751580331 / 18014398509481984)) ∧
      interleaved_preference_double ["s1", "s2", "s3", "s4"]
          (["A", "B", "B", "A"].map swapLabel) =
        some (Dbl.fin (1501199875790165 / 9007199254740992)) ∧
      (1501199875790165 / 9007199254740992 : ℚ) ≠ -(-3002399751580331 / 18014398509481984) := by
  have hm : interleaved_map ["s1", "s2", "s3", "s4"] ["A", "B", "B", "A"] =
      some [("s1", 1), ("s2", -1), ("s3", -1)] := by decide
  have hm' : interleaved_map ["s1", "s2", "s3", "s4"] (["A", "B", "B", "A"].map swapLabel) =
      some [("s1", -1), ("s2", 1), ("s3", 1)] := by decide
  have ht : sessionTally [("s1", 1), ("s2", -1), ("s3", -1)] =
      { winsA := 1, winsB := 2, ties := 0 } := by decide
  have ht' : sessionTally [("s1", -1), ("s2", 1), ("s3", 1)] =
      { winsA := 2, winsB := 1, ties := 0 } := by decide
  refine ⟨by decide, hm, ?_, ?_, by norm_num⟩
  · simp only [interleaved_preference_double, hm, Option.map_some', ht, preferenceDouble_one_two]
  · simp only [interleaved_preference_double, hm', Option.map_some', ht', preferenceDouble_two_one]

/-- C5 (amended): with every click "A" or "B" and a non-empty outcome mapping,
exchanging "A" and "B" in the clicks exchanges `winsA` and `winsB` and leaves
`ties` unchanged; the double value returned for the exchanged clicks is the
preference formula at the exchanged tallies, and the value computed in exact
rational arithmetic is negated. -/
theorem interleaved_preference_swap_exact (sessions clicks : List String) (m : WinsMap)
    (hAB : ∀ c ∈ clicks, c = "A" ∨ c = "B")
    (hm : interleaved_map sessions clicks = some m) (hne : m ≠ []) :
    ∃ m', interleaved_map sessions (clicks.map swapLabel) = some m' ∧
      (sessionTally m').winsA = (sessionTally m).winsB ∧
      (sessionTally m').winsB = (sessionTally m).winsA ∧
      (sessionTally m').ties = (sessionTally m).ties ∧
      interleaved_preference_double sessions (clicks.map swapLabel) =
        some ({ winsA := (sessionTally m).winsB
                winsB := (sessionTally m).winsA
                ties := (sessionTally m).ties } : Tally).preferenceDouble ∧
      ∃ v : ℚ, interleaved_preference sessions clicks = some (Dbl.fin v) ∧
        interleaved_preference sessions (clicks.map swapLabel) = some (Dbl.fin (-v)) := by
  obtain ⟨c1, c2, c3⟩ := countP_negMap m
  have hmap : interleaved_map sessions (clicks.map swapLabel) = some (negMap m) := by
    rw [interleaved_map_swap sessions clicks hAB, hm]
    rfl
  have htally : sessionTally (negMap m) =
      { winsA := (sessionTally m).winsB
        winsB := (sessionTally m).winsA
        ties := (sessionTally m).ties } := by
    rw [sessionTally_eq (negMap m), sessionTally_eq m, c1, c2, c3]
  refine ⟨negMap m, hmap, ?_, ?_, ?_, ?_,
    interleaved_preference_swap sessions clicks m hAB hm hne⟩
  · rw [htally]
  · rw [htally]
  · rw [htally]
  · simp only [interleaved_preference_double, hmap, Option.map_some', htally]

/-- Witness for C5 (amended) on sessions `s1 s2 s3 s4` with clicks `A B B A`. -/
theorem interleaved_preference_swap_exact_witness :
    ∃ m', interleaved_map ["s1", "s2", "s3", "s4"] (["A", "B", "B", "A"].map swapLabel) =
        some m' ∧
      (sessionTally m').winsA = (sessionTally [("s1", 1), ("s2", -1), ("s3", -1)]).winsB ∧
      (sessionTally m').winsB = (sessionTally [("s1", 1), ("s2", -1), ("s3", -1)]).winsA ∧
      (sessionTally m').ties = (sessionTally [("s1", 1), ("s2", -1), ("s3", -1)]).ties ∧
      interleaved_preference_double ["s1", "s2", "s3", "s4"]
          (["A", "B", "B", "A"].map swapLabel) =
        some ({ winsA := (sessionTally [("s1", 1), ("s2", -1), ("s3", -1)]).winsB
                winsB := (sessionTally [("s1", 1), ("s2", -1), ("s3", -1)]).winsA
                ties := (sessionTally [("s1", 1), ("s2", -1), ("s3", -1)]).ties } :
          Tally).preferenceDouble ∧
      ∃ v : ℚ, interleaved_preference ["s1", "s2", "s3", "s4"] ["A", "B", "B", "A"] =
          some (Dbl.fin v) ∧
        interleaved_preference ["s1", "s2", "s3", "s4"] (["A", "B", "B", "A"].map swapLabel) =
          some (Dbl.fin (-v)) :=
  interleaved_preference_swap_exact ["s1", "s2", "s3", "s4"] ["A", "B", "B", "A"]
    [("s1", 1), ("s2", -1), ("s3", -1)] (by decide) (by decide) (by decide)

end Wmf
